import Mathlib

/-!
Verification development for the virtual-tree reconciliation engine of the
stencil repository.

The repository ships the engine's unit tests (`src/runtime/vdom/test/attributes.spec.ts`)
and the host-integration caller (`src/element/patch-element.ts`), while the engine
itself (tree builder `h`, the `patch` renderer and the property modules) is not part
of the source snapshot.  Definitions for those missing parts are therefore modelled
from the specification (sections 3, 4.1-4.4 and 8 of spec.md) and are marked as such
in their doc comments.  `patch-element.ts` is embedded directly from its source.
-/

/-- Modelled from the spec: a JavaScript-style property value as it appears in a
virtual node property bag (`false`/`null`/`undefined` versus strings and numbers
matter for the attributes module). -/
inductive AttrVal where
  | vNull
  | vUndef
  | vBool (b : Bool)
  | vNum (n : Int)
  | vStr (s : String)
deriving DecidableEq, Repr

/-- JavaScript truthiness of a property value. -/
def AttrVal.truthy : AttrVal → Bool
  | .vNull => false
  | .vUndef => false
  | .vBool b => b
  | .vNum n => n != 0
  | .vStr s => s != ""

/-- JavaScript `String(v)` coercion of a property value. -/
def AttrVal.jsStr : AttrVal → String
  | .vNull => "null"
  | .vUndef => "undefined"
  | .vBool true => "true"
  | .vBool false => "false"
  | .vNum n => toString n
  | .vStr s => s

/-- Modelled from the spec: the documented boolean-attribute allow-list
("`required`, `readonly`, etc." per the design notes; the engine's fixed
enumerated set, including the names exercised by the repository's tests). -/
def booleanAttrs : List String :=
  ["allowfullscreen", "async", "autofocus", "autoplay", "checked", "compact",
   "controls", "declare", "default", "defaultchecked", "defaultmuted",
   "defaultselected", "defer", "disabled", "draggable", "enabled",
   "formnovalidate", "hidden", "indeterminate", "inert", "ismap", "itemscope",
   "loop", "multiple", "muted", "nohref", "noresize", "noshade", "novalidate",
   "nowrap", "open", "pauseonexit", "readonly", "required", "reversed",
   "scoped", "seamless", "selected", "sortable", "spellcheck", "translate",
   "truespeed", "typemustmatch", "visible", "value"]

/-- The fixed xlink namespace URI used for namespaced attribute operations. -/
def xlinkNS : String := "http://www.w3.org/1999/xlink"

/-- The SVG namespace URI (foreign-subtree namespace). -/
def svgNS : String := "http://www.w3.org/2000/svg"

/-- Modelled from the spec: detection of attribute names carrying the
`xlink:`-style namespace prefix. -/
def isXlinkName (k : String) : Bool := "xlink:".data.isPrefixOf k.data

/-- The local part of an `xlink:`-prefixed attribute name. -/
def stripXlink (k : String) : String := String.mk (k.data.drop 6)

/-- Split a character list on a separator character (the shape of the
JavaScript `split` used by the tree builder and the class handling). -/
def splitOnAux (c : Char) : List Char → List Char → List (List Char)
  | [], acc => [acc.reverse]
  | x :: xs, acc =>
    if x == c then acc.reverse :: splitOnAux c xs []
    else splitOnAux c xs (x :: acc)

/-- JavaScript `s.split(c)` for a single-character separator. -/
def splitOnChar (s : String) (c : Char) : List String :=
  (splitOnAux c s.data []).map String.mk

/-- One attribute slot on a host node: optional namespace URI, name (the
qualified name under which default-API lookups find it) and string value. -/
structure Attr where
  ns : Option String
  name : String
  value : String
deriving DecidableEq, Repr

/-- Host adapter: default-API attribute read (first attribute whose qualified
name matches, regardless of namespace, as in the DOM). -/
def getAttribute (attrs : List Attr) (k : String) : Option String :=
  (attrs.find? (fun a => a.name == k)).map Attr.value

/-- Host adapter: namespace-aware attribute read. -/
def getAttributeNS (attrs : List Attr) (nsUri k : String) : Option String :=
  (attrs.find? (fun a => a.ns == some nsUri && a.name == k)).map Attr.value

/-- Host adapter: default-API attribute write (overwrite the existing
non-namespaced attribute of that name, or append a fresh one). -/
def setAttribute (attrs : List Attr) (k s : String) : List Attr :=
  if attrs.any (fun a => a.ns == none && a.name == k) then
    attrs.map (fun a => if a.ns == none && a.name == k then ⟨none, k, s⟩ else a)
  else
    attrs ++ [⟨none, k, s⟩]

/-- Host adapter: namespace-aware attribute write. -/
def setAttributeNS (attrs : List Attr) (nsUri k s : String) : List Attr :=
  if attrs.any (fun a => a.ns == some nsUri && a.name == k) then
    attrs.map (fun a => if a.ns == some nsUri && a.name == k then ⟨some nsUri, k, s⟩ else a)
  else
    attrs ++ [⟨some nsUri, k, s⟩]

/-- Host adapter: default-API attribute removal (first attribute whose
qualified name matches, as in the DOM). -/
def removeAttribute (attrs : List Attr) (k : String) : List Attr :=
  attrs.eraseP (fun a => a.name == k)

/-- Host adapter: namespace-aware attribute removal. -/
def removeAttributeNS (attrs : List Attr) (nsUri k : String) : List Attr :=
  attrs.eraseP (fun a => a.ns == some nsUri && a.name == k)

/-- Removal of the attribute for property name `k`, routed through the
namespaced API for `xlink:`-prefixed names. -/
def removeAttrFor (attrs : List Attr) (k : String) : List Attr :=
  if isXlinkName k then removeAttributeNS attrs xlinkNS (stripXlink k)
  else removeAttribute attrs k

/-- Modelled from the spec: the attributes module's treatment of a single
property `k := v` (spec section 4.2).  Boolean-allow-list names are governed by
truthiness (`true` becomes the empty string, other truthy values are
stringified, falsy values remove the attribute); `false`/`null`/`undefined`
remove the attribute entirely; `xlink:`-prefixed names go through the
namespaced API against the fixed xlink URI; every other name is set to the
string form of the value. -/
def applyAttr (attrs : List Attr) (k : String) (v : AttrVal) : List Attr :=
  if booleanAttrs.contains k then
    if v.truthy then
      if v = .vBool true then setAttribute attrs k ""
      else setAttribute attrs k v.jsStr
    else removeAttribute attrs k
  else if v = .vNull ∨ v = .vUndef ∨ v = .vBool false then
    removeAttrFor attrs k
  else if isXlinkName k then
    setAttributeNS attrs xlinkNS (stripXlink k) v.jsStr
  else
    setAttribute attrs k v.jsStr

/-- Modelled from the spec: the attributes module's update hook — apply every
changed entry of the new bag, then remove attributes whose key is present in
the old bag but absent from the new one.  The create hook is the special case
of an empty old bag. -/
def updateAttrs (oldBag newBag : List (String × AttrVal)) (attrs : List Attr) : List Attr :=
  let a1 := newBag.foldl
    (fun acc kv => if oldBag.lookup kv.1 = some kv.2 then acc else applyAttr acc kv.1 kv.2)
    attrs
  oldBag.foldl
    (fun acc kv => if (newBag.lookup kv.1).isSome then acc else removeAttrFor acc kv.1)
    a1

/-- Adding one CSS class to a host `className` string (no-op when already present). -/
def addClassStr (cn k : String) : String :=
  if (splitOnChar cn ' ').contains k then cn
  else if cn = "" then k else cn ++ " " ++ k

/-- Removing one CSS class from a host `className` string. -/
def removeClassStr (cn k : String) : String :=
  String.intercalate " " (((splitOnChar cn ' ').filter (fun c => c ≠ k)).filter (fun c => c ≠ ""))

/-- Modelled from the spec: the class module's update hook — toggle exactly the
classes whose truthiness changed between the two class mappings; classes not
mentioned in either mapping are left untouched.  The create hook is the special
case of an empty old mapping (every truthy class is added). -/
def updateClass (oldK newK : List (String × Bool)) (cn : String) : String :=
  let cn1 := newK.foldl
    (fun c kv =>
      let oldV := (oldK.lookup kv.1).getD false
      if kv.2 && !oldV then addClassStr c kv.1
      else if !kv.2 && oldV then removeClassStr c kv.1
      else c)
    cn
  oldK.foldl
    (fun c kv => if kv.2 && (newK.lookup kv.1).isNone then removeClassStr c kv.1 else c)
    cn1

/-- Modelled from the spec: a virtual node (spec section 3).  `sel` is the
optional tag selector (absent for text nodes), `key` the derived identity
token, `attrs` the plain-attribute bag, `klass` the nested class mapping,
`text` the literal text payload (mutually exclusive with children), `children`
the ordered child sequence, `elm` the host reference populated during patch,
and `isHost` the host-root marker set by the integration layer. -/
inductive VNode where
  | mk (sel : Option String) (key : Option String)
       (attrs : List (String × AttrVal)) (klass : List (String × Bool))
       (text : Option String) (children : List VNode)
       (elm : Option Nat) (isHost : Bool)

def VNode.sel : VNode → Option String
  | .mk s _ _ _ _ _ _ _ => s

def VNode.key : VNode → Option String
  | .mk _ k _ _ _ _ _ _ => k

def VNode.attrs : VNode → List (String × AttrVal)
  | .mk _ _ a _ _ _ _ _ => a

def VNode.klass : VNode → List (String × Bool)
  | .mk _ _ _ kl _ _ _ _ => kl

def VNode.text : VNode → Option String
  | .mk _ _ _ _ t _ _ _ => t

def VNode.children : VNode → List VNode
  | .mk _ _ _ _ _ ch _ _ => ch

def VNode.elm : VNode → Option Nat
  | .mk _ _ _ _ _ _ e _ => e

def VNode.isHost : VNode → Bool
  | .mk _ _ _ _ _ _ _ ih => ih

/-- The host reference of a reconciled virtual node, defaulting to 0 for an
unmaterialized node. -/
def VNode.elmD (v : VNode) : Nat := v.elm.getD 0

/-- Rebuild a virtual node with a new host reference. -/
def VNode.withElm : VNode → Option Nat → VNode
  | .mk s k a kl t ch _ ih, e => .mk s k a kl t ch e ih

/-- Rebuild a virtual node with new children. -/
def VNode.withChildren : VNode → List VNode → VNode
  | .mk s k a kl t _ e ih, ch => .mk s k a kl t ch e ih

/-- Modelled from the spec: the tree builder (spec section 4.1).  Splits the
selector on `.` into the base tag plus always-on classes merged into the class
mapping, extracts `key` from the property bag into the identity field, and
keeps the remaining properties as the attribute bag. -/
def build (sel : String) (props : List (String × AttrVal)) (children : List VNode) : VNode :=
  let parts := splitOnChar sel '.' 
  let tag := parts.headD sel
  let selClasses := (parts.drop 1).map (fun c => (c, true))
  let key := (props.lookup "key").map AttrVal.jsStr
  let attrs := props.filter (fun kv => kv.1 ≠ "key" && kv.1 ≠ "class" && kv.1 ≠ "style")
  VNode.mk (some tag) key attrs selClasses none children none false

/-- Modelled from the spec: a literal text child (coerced to a text node by the
tree builder). -/
def textV (s : String) : VNode := VNode.mk none none [] [] (some s) [] none false

/-- Modelled from the spec: sameness compatibility (spec section 4.3) — both
text nodes, or element nodes with equal selector tag and equal derived key. -/
def sameVnode (a b : VNode) : Bool := a.sel == b.sel && a.key == b.key

/-- A host (real) node: elements carry an engine-assigned identity, a tag, an
optional namespace URI, attributes, the reserved `id`/`className` fields owned
by external actors, and ordered children; text nodes carry their payload. -/
inductive HostNode where
  | elem (nid : Nat) (tag : String) (ns : Option String) (attrs : List Attr)
         (hid : String) (className : String) (children : List HostNode)
  | htext (nid : Nat) (s : String)

/-- The engine-assigned identity of a host node. -/
def HostNode.nid : HostNode → Nat
  | .elem n _ _ _ _ _ _ => n
  | .htext n _ => n

def HostNode.tag : HostNode → String
  | .elem _ t _ _ _ _ _ => t
  | .htext _ _ => ""

def HostNode.nsUri : HostNode → Option String
  | .elem _ _ ns _ _ _ _ => ns
  | .htext _ _ => none

def HostNode.attrs : HostNode → List Attr
  | .elem _ _ _ a _ _ _ => a
  | .htext _ _ => []

/-- The external-actor-owned `id` field of a host element. -/
def HostNode.hid : HostNode → String
  | .elem _ _ _ _ i _ _ => i
  | .htext _ _ => ""

/-- The external-actor-owned `className` field of a host element. -/
def HostNode.className : HostNode → String
  | .elem _ _ _ _ _ c _ => c
  | .htext _ _ => ""

def HostNode.children : HostNode → List HostNode
  | .elem _ _ _ _ _ _ ch => ch
  | .htext _ _ => []

/-- The identities of the direct host children of a host element, in order. -/
def childIds (h : HostNode) : List Nat := h.children.map HostNode.nid

mutual
/-- The concatenated text payload of a host subtree (DOM `textContent`). -/
def hostText : HostNode → String
  | .htext _ s => s
  | .elem _ _ _ _ _ _ ch => hostTextList ch

def hostTextList : List HostNode → String
  | [] => ""
  | h :: hs => hostText h ++ hostTextList hs
end

mutual
/-- All element identities of a host subtree (the nodes the element-directed
module hooks apply to), in creation order. -/
def elemIdsH : HostNode → List Nat
  | .htext _ _ => []
  | .elem n _ _ _ _ _ ch => n :: elemIdsHList ch

def elemIdsHList : List HostNode → List Nat
  | [] => []
  | h :: hs => elemIdsH h ++ elemIdsHList hs
end

/-- Observable events of a reconciliation pass, in emission order: a host node
freshly created, a module create hook applied to a host element, the module
remove/destroy hooks applied to a host node about to be discarded, and the
release (detach/discard) of a host node's reference. -/
inductive Ev where
  | created (nid : Nat)
  | createHook (nid : Nat)
  | destroyHook (nid : Nat)
  | released (nid : Nat)
deriving DecidableEq, Repr

/-- The initial `className` string a created element receives from the class
module's create hook. -/
def classNameOfKlass (kl : List (String × Bool)) : String := updateClass [] kl ""

/-- The result of materializing one virtual node. -/
structure CreateOut where
  host : HostNode
  fresh : Nat
  evs : List Ev
  vnode : VNode

/-- The result of materializing a sequence of virtual nodes. -/
structure CreateListOut where
  hosts : List HostNode
  fresh : Nat
  evs : List Ev
  vnodes : List VNode

mutual
/-- Modelled from the spec: subtree creation (spec sections 4.3 `create` state
and 4.4).  Creates a host node for the virtual node — namespace-aware: an
`svg` tag enters the SVG namespace, descendants inherit the namespace, and a
`foreignObject` tag reverts its children to the default namespace — applies
the module create hooks (attributes and classes), recursively creates the
children, and populates the virtual node's host reference. -/
def createElm : VNode → Option String → Nat → CreateOut
  | .mk sel key attrs klass txt children _ ih, pns, fresh =>
    match sel with
    | none =>
      { host := .htext fresh (txt.getD ""), fresh := fresh + 1,
        evs := [.created fresh],
        vnode := .mk sel key attrs klass txt children (some fresh) ih }
    | some tag =>
      let ns := if tag = "svg" then some svgNS else pns
      let childNs := if tag = "foreignObject" then none else ns
      let r := createElms children childNs (fresh + 1)
      let hostAttrs := updateAttrs [] attrs []
      { host := .elem fresh tag ns hostAttrs "" (classNameOfKlass klass) r.hosts,
        fresh := r.fresh,
        evs := .created fresh :: r.evs ++ [.createHook fresh],
        vnode := .mk sel key attrs klass txt r.vnodes (some fresh) ih }

def createElms : List VNode → Option String → Nat → CreateListOut
  | [], _, fresh => { hosts := [], fresh := fresh, evs := [], vnodes := [] }
  | v :: vs, pns, fresh =>
    let r := createElm v pns fresh
    let rs := createElms vs pns r.fresh
    { hosts := r.host :: rs.hosts, fresh := rs.fresh,
      evs := r.evs ++ rs.evs, vnodes := r.vnode :: rs.vnodes }
end

mutual
/-- The host references of a retained virtual subtree, children first
(bottom-up order, matching the destroy-hook firing order). -/
def subElms : VNode → List Nat
  | .mk _ _ _ _ _ ch e _ => subElmsList ch ++ [e.getD 0]

def subElmsList : List VNode → List Nat
  | [] => []
  | v :: vs => subElms v ++ subElmsList vs
end

/-- Modelled from the spec: the event trace of removing and destroying one
retained subtree — the module remove/destroy hooks fire bottom-up over the
whole subtree before any of its references are released. -/
def removedTrace (v : VNode) : List Ev :=
  (subElms v).map Ev.destroyHook ++ (subElms v).map Ev.released

/-- Host adapter: find a child host node by identity. -/
def domFind (dom : List HostNode) (nid : Nat) : Option HostNode :=
  dom.find? (fun h => h.nid == nid)

/-- Replace the child host node with the given identity. -/
def domReplace (dom : List HostNode) (nid : Nat) (h' : HostNode) : List HostNode :=
  dom.map (fun h => if h.nid == nid then h' else h)

/-- Host adapter: detach the child host node with the given identity. -/
def domErase (dom : List HostNode) (nid : Nat) : List HostNode :=
  dom.filter (fun h => h.nid != nid)

/-- Host adapter: insert a host node before the child with the given identity
(append when the reference is absent). -/
def domInsertBefore (dom : List HostNode) (h : HostNode) (ref : Option Nat) : List HostNode :=
  match ref with
  | none => dom ++ [h]
  | some r =>
    match dom with
    | [] => [h]
    | d :: ds => if d.nid == r then h :: d :: ds else d :: domInsertBefore ds h (some r)

/-- Host adapter: the identity of the sibling immediately following the child
with the given identity. -/
def domNextSib : List HostNode → Nat → Option Nat
  | [], _ => none
  | [_], _ => none
  | d :: d2 :: ds, r => if d.nid == r then some d2.nid else domNextSib (d2 :: ds) r

/-- Move the child with identity `nid` so that it sits just before `ref`
(append when `ref` is absent). -/
def domMoveBefore (dom : List HostNode) (nid : Nat) (ref : Option Nat) : List HostNode :=
  match domFind dom nid with
  | none => dom
  | some h => domInsertBefore (domErase dom nid) h ref

/-- The lazily-built key lookup over the remaining old child range: the index
of the first non-hole slot carrying the given key. -/
def oldKeyIdx : List (Option VNode) → String → Option Nat
  | [], _ => none
  | slot :: rest, k =>
    match slot with
    | some v => if v.key == some k then some 0 else (oldKeyIdx rest k).map (· + 1)
    | none => (oldKeyIdx rest k).map (· + 1)

/-- The result of patching one virtual node pair in place. -/
structure PatchOut where
  host : HostNode
  vnode : VNode
  fresh : Nat
  evs : List Ev

/-- The result of patching one child pair inside a host child list. -/
structure PatchDomOut where
  dom : List HostNode
  vnode : VNode
  fresh : Nat
  evs : List Ev

/-- The result of the children-diffing pass over a host child list. -/
structure UCOut where
  dom : List HostNode
  vnodes : List VNode
  fresh : Nat
  evs : List Ev

mutual
/-- Modelled from the spec: in-place patch of two sameness-compatible nodes
(spec section 4.3 `patch-same`).  Text payload is updated directly; element
nodes get the module update hooks (attributes, classes) and then the
children-diffing pass; the host reference transfers to the new node. -/
def patchVnode : Nat → VNode → VNode → HostNode → Nat → PatchOut
  | 0, _, new, host, fresh => ⟨host, new, fresh, []⟩
  | fuel+1, old, new, host, fresh =>
    match host with
    | .htext nid s =>
      match new.text with
      | some t => ⟨.htext nid t, new.withElm (some nid), fresh, []⟩
      | none => ⟨.htext nid s, new.withElm (some nid), fresh, []⟩
    | .elem nid tag ns attrs hid cls hch =>
      let attrs2 := updateAttrs old.attrs new.attrs attrs
      let cls2 := updateClass old.klass new.klass cls
      let childNs := if tag = "foreignObject" then none else ns
      let r := updateChildren fuel (old.children.map some) new.children hch none childNs fresh
      ⟨.elem nid tag ns attrs2 hid cls2 r.dom,
       (new.withChildren r.vnodes).withElm (some nid), r.fresh, r.evs⟩

/-- In-place patch of an old/new child pair, locating the old child's host
node inside the host child list by its reference. -/
def patchInDom : Nat → VNode → VNode → List HostNode → Nat → PatchDomOut
  | 0, _, new, dom, fresh => ⟨dom, new, fresh, []⟩
  | fuel+1, old, new, dom, fresh =>
    match domFind dom old.elmD with
    | none => ⟨dom, new.withElm old.elm, fresh, []⟩
    | some h =>
      let r := patchVnode fuel old new h fresh
      ⟨domReplace dom old.elmD r.host, r.vnode, r.fresh, r.evs⟩

/-- Modelled from the spec: the four-cursor keyed children-diffing pass (spec
section 4.3).  `oldCh` is the remaining old range (`none` marks a slot whose
node was already moved by the keyed fallback), `newCh` the remaining new
range, `dom` the live host child list, `after` the host reference before which
post-loop insertions go (the neighbour of the new-end cursor). -/
def updateChildren : Nat → List (Option VNode) → List VNode → List HostNode →
    Option Nat → Option String → Nat → UCOut
  | 0, _, _, dom, _, _, fresh => ⟨dom, [], fresh, []⟩
  | fuel+1, oldCh, newCh, dom, after, pns, fresh =>
    match newCh with
    | [] =>
      let rems := oldCh.filterMap id
      let evs := rems.foldr (fun v acc => removedTrace v ++ acc) []
      let dom2 := rems.foldl (fun d v => domErase d v.elmD) dom
      ⟨dom2, [], fresh, evs⟩
    | nS :: newRest =>
      match oldCh with
      | [] =>
        let r := createElms (nS :: newRest) pns fresh
        let dom2 := r.hosts.foldl (fun d h => domInsertBefore d h after) dom
        ⟨dom2, r.vnodes, r.fresh, r.evs⟩
      | none :: oldRest =>
        updateChildren fuel oldRest (nS :: newRest) dom after pns fresh
      | some oS :: oldRest =>
      let oldL := some oS :: oldRest
      let newL := nS :: newRest
      match oldL.getLast? with
      | none => ⟨dom, [], fresh, []⟩
      | some none =>
        updateChildren fuel oldL.dropLast newL dom after pns fresh
      | some (some oE) =>
        let nE := newL.getLast?.getD nS
        if sameVnode oS nS then
          let p := patchInDom fuel oS nS dom fresh
          let r := updateChildren fuel oldRest newRest p.dom after pns p.fresh
          ⟨r.dom, p.vnode :: r.vnodes, r.fresh, p.evs ++ r.evs⟩
        else if sameVnode oE nE then
          let p := patchInDom fuel oE nE dom fresh
          let r := updateChildren fuel oldL.dropLast newL.dropLast p.dom (some oE.elmD) pns p.fresh
          ⟨r.dom, r.vnodes ++ [p.vnode], r.fresh, p.evs ++ r.evs⟩
        else if sameVnode oS nE then
          let p := patchInDom fuel oS nE dom fresh
          let dom2 := domMoveBefore p.dom oS.elmD (domNextSib p.dom oE.elmD)
          let r := updateChildren fuel oldRest newL.dropLast dom2 (some oS.elmD) pns p.fresh
          ⟨r.dom, r.vnodes ++ [p.vnode], r.fresh, p.evs ++ r.evs⟩
        else if sameVnode oE nS then
          let p := patchInDom fuel oE nS dom fresh
          let dom2 := domMoveBefore p.dom oE.elmD (some oS.elmD)
          let r := updateChildren fuel oldL.dropLast newRest dom2 after pns p.fresh
          ⟨r.dom, p.vnode :: r.vnodes, r.fresh, p.evs ++ r.evs⟩
        else
          match nS.key.bind (oldKeyIdx oldL) with
          | none =>
            let c := createElm nS pns fresh
            let dom2 := domInsertBefore dom c.host (some oS.elmD)
            let r := updateChildren fuel oldL newRest dom2 after pns c.fresh
            ⟨r.dom, c.vnode :: r.vnodes, r.fresh, c.evs ++ r.evs⟩
          | some i =>
            let vm := ((oldL.get? i).getD none).getD oS
            let p := patchInDom fuel vm nS dom fresh
            let dom2 := domMoveBefore p.dom vm.elmD (some oS.elmD)
            let r := updateChildren fuel (oldL.set i none) newRest dom2 after pns p.fresh
            ⟨r.dom, p.vnode :: r.vnodes, r.fresh, p.evs ++ r.evs⟩
end

/-- Modelled from the spec: first render against a bare host container (spec
section 4.3 step 1) — the container itself receives the new node's host
reference and the module create hooks, and the entire new subtree is created
from scratch under it. -/
def patchFirst (container : HostNode) (new : VNode) (fresh : Nat) : PatchOut :=
  match container with
  | .htext nid s => ⟨.htext nid s, new.withElm (some nid), fresh, []⟩
  | .elem nid tag ns attrs hid cls hch =>
    let attrs2 := updateAttrs [] new.attrs attrs
    let cls2 := updateClass [] new.klass cls
    let childNs := if tag = "foreignObject" then none else ns
    let r := createElms new.children childNs fresh
    ⟨.elem nid tag ns attrs2 hid cls2 (hch ++ r.hosts),
     (new.withChildren r.vnodes).withElm (some nid), r.fresh,
     Ev.createHook nid :: r.evs⟩

/-- Modelled from the spec: the top-level `patch(oldNode, newNode)` entry
point (spec section 4.3).  A caller without a prior host reference gets the
first-render path; a sameness-compatible pair is diffed in place; otherwise a
fresh host subtree is built for the new node and the old subtree is detached
and destroyed (hooks firing before references are released). -/
def patch (fuel : Nat) (oldArg : Option VNode) (new : VNode) (container : HostNode)
    (fresh : Nat) : PatchOut :=
  match oldArg with
  | none => patchFirst container new fresh
  | some old =>
    if sameVnode old new then patchVnode fuel old new container fresh
    else
      let c := createElm new none fresh
      ⟨c.host, c.vnode, c.fresh, c.evs ++ removedTrace old⟩

/-- Modelled from the spec: `isDef` from `utils/helpers` (not part of the
source snapshot; the caller uses it to test whether a host value is defined) —
a value is defined when it is neither `undefined` nor `null`. -/
def isDef (v : AttrVal) : Bool := !(v == .vUndef) && !(v == .vNull)

/-- Modelled from the spec: `Config.get(name, fallback)` from `utils/config`
(not part of the source snapshot) — the global configuration lookup with an
explicit fallback. -/
def configGet (config : List (String × AttrVal)) (name : String) (fallback : AttrVal) : AttrVal :=
  match config.lookup name with
  | some v => v
  | none => fallback

/-- Embedded from `src/element/patch-element.ts` (`getValue`): read the host
element's own property-or-attribute value for `name`; when it is defined use
it, otherwise fall back to the global config lookup (default fallback
`null`). -/
def getValue (name : String) (config props : List (String × AttrVal)) (fallback : AttrVal) : AttrVal :=
  let val := (props.lookup name).getD .vUndef
  if isDef val then val else configGet config name fallback

/-- Set one entry of a class mapping (JavaScript object-key assignment). -/
def setKlass : List (String × Bool) → String → Bool → List (String × Bool)
  | [], k, b => [(k, b)]
  | p :: ps, k, b => if p.1 == k then (k, b) :: ps else p :: setKlass ps k b

/-- The dot-separated segments of a selector (`newVnode.sel.split('.')`). -/
def selSegments (sel : Option String) : List String := splitOnChar (sel.getD "") '.' 

/-- Embedded from `src/element/patch-element.ts`: the component class prefix —
the first class segment of the selector suffixed with `-`, or empty when the
selector carries no class segments. -/
def componentPrefixOf (segs : List String) : String :=
  if segs.length > 1 then segs.getD 1 "" ++ "-" else ""

/-- Embedded from `src/element/patch-element.ts`: merge every class segment of
the selector as a truthy entry into the class mapping. -/
def mergedSelKlass (kl : List (String × Bool)) (segs : List String) : List (String × Bool) :=
  if segs.length > 1 then (segs.drop 1).foldl (fun a c => setKlass a c true) kl else kl

/-- Embedded from `src/element/patch-element.ts`: the class mapping after the
selector segments and the injected mode class, before the optional mode-color
class. -/
def preColorKlass (v : VNode) (mode : AttrVal) : List (String × Bool) :=
  let segs := selSegments v.sel
  setKlass (mergedSelKlass v.klass segs) (componentPrefixOf segs ++ mode.jsStr) true

/-- Embedded from `src/element/patch-element.ts` (lines 27-51): normalization
of the new host virtual node before it is handed to the renderer — `elm` set
to the host element, `isHost` set, selector class segments and the
mode/mode-color classes merged into the class mapping, and `sel` cleared. -/
def normalizeHostVnode (v : VNode) (hostId : Nat) (mode color : AttrVal) : VNode :=
  let segs := selSegments v.sel
  let pfx := componentPrefixOf segs
  let kl := preColorKlass v mode
  let kl2 := if color.truthy then setKlass kl (pfx ++ mode.jsStr ++ "-" ++ color.jsStr) true else kl
  match v with
  | .mk _ key attrs _ txt ch _ _ => .mk none key attrs kl2 txt ch (some hostId) true

/-- The host-integration element state consumed and produced by
`patchElement`: the host element's property/attribute view, the global
config, the host element and its identity, the renderer/properties
initialization flags, the retained virtual tree and the fresh-identity
source. -/
structure IonElm where
  props : List (String × AttrVal)
  config : List (String × AttrVal)
  hostId : Nat
  host : HostNode
  rendererInit : Bool
  propsInitialized : Bool
  vnodePrev : Option VNode
  fresh : Nat

/-- Embedded from `src/element/patch-element.ts` (`patchElement`): render the
element — bail out when `ionNode(h)` returned a falsy virtual node; otherwise
initialize properties and the renderer on first use, normalize the new host
virtual node with the resolved mode and color, and run the renderer against
the retained tree (or the bare host element on the initial patch), retaining
the returned tree. -/
def patchElement (elm : IonElm) (ionNode : Option VNode) (fuel : Nat) : IonElm :=
  match ionNode with
  | none => elm
  | some newVnode =>
    let elm1 :=
      if !elm.rendererInit then
        { elm with propsInitialized := true, rendererInit := true }
      else elm
    let mode := getValue "mode" elm.config elm.props .vNull
    let color := getValue "color" elm.config elm.props .vNull
    let nv := normalizeHostVnode newVnode elm.hostId mode color
    let r := patch fuel elm1.vnodePrev nv elm1.host elm1.fresh
    { elm1 with vnodePrev := some r.vnode, host := r.host, fresh := r.fresh }

/-- Scenario (claim C1): a keyed `span` child. -/
def spanK (k : String) : VNode := build "span" [("key", .vStr k)] []
def hostC1 : HostNode := HostNode.elem 100 "div" none [] "" "" []
def listABC : VNode := build "div" [] [spanK "a", spanK "b", spanK "c"]
def listCAB : VNode := build "div" [] [spanK "c", spanK "a", spanK "b"]
def reorderR1 : PatchOut := patch 50 none listABC hostC1 0
def reorderR2 : PatchOut := patch 50 (some reorderR1.vnode) listCAB reorderR1.host reorderR1.fresh
def reorderR3 : PatchOut := patch 50 (some reorderR2.vnode) listABC reorderR2.host reorderR2.fresh
def keyElms (v : VNode) : List (String × Nat) :=
  v.children.map (fun c => (c.key.getD "", c.elmD))

/-- Scenario (claim C2): empty host `div` and the falsy-attribute tree. -/
def emptyDiv : HostNode := HostNode.elem 100 "div" none [] "" "" []
def c2new : VNode := build "div" [("href", .vNull), ("minlength", .vNum 0), ("value", .vBool false)] []

/-- Scenario (claim C4): SVG-namespace host and the nested xlink tree. -/
def svgHost : HostNode := HostNode.elem 100 "svg" (some svgNS) [] "" "" []
def c4new : VNode := build "svg" [] [build "div" [("xlink:href", .vStr "/test")] []]

/-- A property value whose presence the attributes module must erase. -/
def isRemovedVal (v : AttrVal) : Bool :=
  v == .vNull || v == .vUndef || v == .vBool false

/-- Well-formed host attribute state: qualified names are pairwise distinct. -/
def namesNodup (attrs : List Attr) : Prop := (attrs.map Attr.name).Nodup

/-- Host attribute state carrying only non-namespaced attributes. -/
def allPlain (attrs : List Attr) : Prop := ∀ a ∈ attrs, a.ns = none

/-- The module-facing absence check for a property name: namespaced `has` for
xlink-prefixed names, default `has` otherwise. -/
def attrAbsent (attrs : List Attr) (k : String) : Bool :=
  if isXlinkName k then (getAttributeNS attrs xlinkNS (stripXlink k)).isNone
  else (getAttribute attrs k).isNone

/-- Scenario (claim C3): the boolean-attribute and plain-attribute test trees. -/
def c3new1 : VNode :=
  build "div" [("required", .vBool true), ("readonly", .vNum 1), ("noresize", .vStr "truthy")] []
def c3new2 : VNode :=
  build "div" [("href", .vStr "/foo"), ("minlength", .vNum 1), ("value", .vBool true)] []

/-- Concrete host-integration element state and a dotted-selector vnode. -/
def ionElmW : IonElm :=
  ⟨[("mode", .vStr "md")], [("color", .vStr "primary")], 7,
   HostNode.elem 7 "div" none [] "" "" [], false, false, none, 0⟩

def vnodeW : VNode := VNode.mk (some "ion-badge.badge") none [] [] none [] none false

/-- A well-ordered destruction trace: every release of a host reference is
preceded by the module destroy hooks for that same node. -/
def GoodTrace (tr : List Ev) : Prop :=
  ∀ (i n : Nat), tr[i]? = some (Ev.released n) →
    ∃ j, j < i ∧ tr[j]? = some (Ev.destroyHook n)

/-- Scenario (claim C5): a retained `span` subtree replaced by a `div`. -/
def replacedOldW : VNode := VNode.mk (some "span") none [] [] none [] (some 3) false
def replacedNewW : VNode := VNode.mk (some "div") none [] [] none [] none false
def containerW : HostNode :=
  HostNode.elem 100 "div" none [] "" "" [HostNode.elem 3 "span" none [] "" "" []]

mutual
/-- Well-formed virtual trees (spec section 3 invariants): a text node carries
no children; element children are recursively well-formed. -/
def wellFormedV : VNode → Bool
  | .mk sel _ _ _ _ ch _ _ =>
    match sel with
    | none => ch.isEmpty
    | some _ => wellFormedList ch

def wellFormedList : List VNode → Bool
  | [] => true
  | v :: vs => wellFormedV v && wellFormedList vs
end

mutual
/-- Every node of the virtual subtree carries a populated host reference. -/
def allAssigned : VNode → Bool
  | .mk _ _ _ _ _ ch e _ => e.isSome && allAssignedList ch

def allAssignedList : List VNode → Bool
  | [] => true
  | v :: vs => allAssigned v && allAssignedList vs
end

mutual
/-- The virtual subtree and the host subtree correspond: the virtual node owns
exactly the host node's reference, tags and text payloads agree, and children
correspond pointwise. -/
def mirrors : VNode → HostNode → Bool
  | .mk sel _ _ _ txt ch e _, h =>
    match sel, h with
    | none, .htext nid s => e == some nid && txt.getD "" == s
    | some tag, .elem nid tag2 _ _ _ _ hch =>
      e == some nid && tag == tag2 && mirrorsList ch hch
    | _, _ => false

def mirrorsList : List VNode → List HostNode → Bool
  | [], [] => true
  | v :: vs, hh :: hs => mirrors v hh && mirrorsList vs hs
  | _, _ => false
end

/-- Scenario (claim C7): a small two-child first-render tree. -/
def firstRenderW : VNode := build "div" [] [build "span" [] [], textV "x"]

/-- The non-hole virtual nodes of an old-children slot range. -/
def nonHoles (l : List (Option VNode)) : List VNode := l.filterMap id

/-- A host node that is an element node. -/
def isElemNode : HostNode → Bool
  | .elem _ _ _ _ _ _ _ => true
  | .htext _ _ => false

/-- The host/virtual correspondence for a retained sibling: the host node is an
element carrying exactly the virtual node's host reference. -/
def hostFor (h : HostNode) (v : VNode) : Prop :=
  isElemNode h = true ∧ h.nid = v.elmD

/-- The host reference of the sibling with the given node's key in a retained
sibling list — the reference keyed reconciliation must reuse. -/
def matchElm (nh : List VNode) (n : VNode) : Nat :=
  ((nh.find? (fun o => o.key == n.key)).map VNode.elmD).getD 0

/-- A root virtual node over a sibling list, as a render pass produces it. -/
def rootV (ch : List VNode) (e : Option Nat) : VNode :=
  VNode.mk (some "div") none [] [] none ch e false

/-- A new sibling bound to the host reference of its key-matched retained
sibling. -/
def bindTo (olds : List VNode) (n : VNode) : VNode :=
  n.withElm (some (matchElm olds n))

/-- The keyed-reorder specification of the children-diffing pass at a given
fuel: over any host child list split `F ++ M ++ B` whose middle `M` holds the
retained element hosts of the non-hole old range, patching to a same-key
permutation of keyed leaf siblings rearranges `M` in place — no events (no
host node created or destroyed), every new sibling bound to the host
reference of its key-matched old sibling, in the new order. -/
def ReorderSpec (fuel : Nat) : Prop :=
  ∀ (olds : List (Option VNode)) (news : List VNode)
    (F M B : List HostNode) (after : Option Nat) (pns : Option String) (fresh : Nat),
    olds.length + news.length + 3 ≤ fuel →
    List.Forall₂ hostFor M (nonHoles olds) →
    ((F ++ M ++ B).map HostNode.nid).Nodup →
    ((nonHoles olds).map VNode.key).Nodup →
    (news.map VNode.key).Perm ((nonHoles olds).map VNode.key) →
    (∀ o ∈ nonHoles olds, ∀ n ∈ news, o.key = n.key → o.sel = n.sel) →
    (∀ o ∈ nonHoles olds, o.children = []) →
    (∀ n ∈ news, n.children = [] ∧ n.key.isSome) →
    ∃ M' : List HostNode,
      updateChildren fuel olds news (F ++ M ++ B) after pns fresh =
        ⟨F ++ M' ++ B, news.map (bindTo (nonHoles olds)), fresh, []⟩ ∧
      List.Forall₂ hostFor M' (news.map (bindTo (nonHoles olds)))

/-- The host reference the keyed lookup resolves for a key over a retained
sibling list (the key-indexed view of `matchElm`). -/
def keyRef (l : List VNode) (k : Option String) : Nat :=
  ((l.find? (fun o => o.key == k)).map VNode.elmD).getD 0

/-- Witness scenario (claim C1): the keyed spans `[a,b,c]` bound to host
references `0,1,2`, re-rendered as `[c,a,b]`, over the matching host list. -/
def wOldsC1 : List VNode :=
  [(spanK "a").withElm (some 0), (spanK "b").withElm (some 1), (spanK "c").withElm (some 2)]
def wNewsC1 : List VNode := [spanK "c", spanK "a", spanK "b"]
def wMC1 : List HostNode :=
  [HostNode.elem 0 "span" none [] "" "" [], HostNode.elem 1 "span" none [] "" "" [],
   HostNode.elem 2 "span" none [] "" "" []]

theorem truthy_false_of_removedVal {v : AttrVal} (h : isRemovedVal v = true) :
    v.truthy = false := by
  cases v with
  | vBool b => cases b <;> simp_all [isRemovedVal, AttrVal.truthy]
  | _ => simp_all [isRemovedVal, AttrVal.truthy]

theorem removedVal_iff {v : AttrVal} :
    isRemovedVal v = true ↔ (v = .vNull ∨ v = .vUndef ∨ v = .vBool false) := by
  cases v with
  | vBool b => cases b <;> simp [isRemovedVal]
  | _ => simp [isRemovedVal]

theorem boolean_not_xlink {k : String} (h : booleanAttrs.contains k = true) :
    isXlinkName k = false := by
  have hall : booleanAttrs.all (fun s => !(isXlinkName s)) = true := by decide
  rw [List.all_eq_true] at hall
  have := hall k (by simpa using h)
  simpa using this

theorem getAttribute_of_not_mem {attrs : List Attr} {k : String}
    (h : k ∉ attrs.map Attr.name) : getAttribute attrs k = none := by
  unfold getAttribute
  rw [List.find?_eq_none.2]
  · rfl
  · intro a ha
    simp only [beq_iff_eq]
    intro hk
    exact h (List.mem_map.2 ⟨a, ha, hk⟩)

theorem getAttribute_removeAttribute {attrs : List Attr} {k : String}
    (h : namesNodup attrs) : getAttribute (removeAttribute attrs k) k = none := by
  induction attrs with
  | nil => rfl
  | cons a as ih =>
    unfold namesNodup at h
    simp only [List.map_cons, List.nodup_cons] at h
    unfold removeAttribute at *
    rw [List.eraseP_cons]
    by_cases hk : a.name = k
    · simp only [hk, beq_self_eq_true, cond_true]
      exact getAttribute_of_not_mem (hk ▸ h.1)
    · have hbk : (a.name == k) = false := by simpa using hk
      simp only [hbk, cond_false]
      unfold getAttribute
      rw [List.find?_cons_of_neg _ (by simp [hbk])]
      exact ih h.2

theorem getAttributeNS_removeAttributeNS {attrs : List Attr} {nsUri lk : String}
    (h : namesNodup attrs) :
    getAttributeNS (removeAttributeNS attrs nsUri lk) nsUri lk = none := by
  induction attrs with
  | nil => rfl
  | cons a as ih =>
    unfold namesNodup at h
    simp only [List.map_cons, List.nodup_cons] at h
    unfold removeAttributeNS at *
    rw [List.eraseP_cons]
    by_cases hq : (a.ns == some nsUri && a.name == lk) = true
    · simp only [hq, cond_true]
      have hnm : a.name = lk := by
        have hq2 : a.ns = some nsUri ∧ a.name = lk := by simpa using hq
        exact hq2.2
      unfold getAttributeNS
      rw [List.find?_eq_none.2]
      · rfl
      · intro x hx hqx
        have hxnm : x.name = lk := by
          have hq2 : x.ns = some nsUri ∧ x.name = lk := by simpa using hqx
          exact hq2.2
        exact h.1 (hnm ▸ hxnm ▸ List.mem_map.2 ⟨x, hx, rfl⟩)
    · have hq' : (a.ns == some nsUri && a.name == lk) = false := by
        simpa using hq
      simp only [hq', cond_false]
      unfold getAttributeNS
      rw [List.find?_cons_of_neg _ (by simp [hq'])]
      exact ih h.2

theorem getAttr_map_set {k s : String} :
    ∀ attrs : List Attr, allPlain attrs →
      (∃ a ∈ attrs, (a.ns == none && a.name == k) = true) →
      getAttribute
        (attrs.map (fun a => if a.ns == none && a.name == k then ⟨none, k, s⟩ else a)) k
        = some s := by
  intro attrs
  induction attrs with
  | nil => rintro _ ⟨a, ha, _⟩; cases ha
  | cons a as ih =>
    intro hp ⟨w, hw, hwq⟩
    by_cases hq : (a.ns == none && a.name == k) = true
    · simp only [List.map_cons, hq, if_true]
      unfold getAttribute
      rw [List.find?_cons_of_pos _ (by simp)]
      rfl
    · have hq' : (a.ns == none && a.name == k) = false := by simpa using hq
      simp only [List.map_cons, hq', if_false]
      have hnk : (a.name == k) = false := by
        have hns : a.ns = none := hp a (List.mem_cons_self a as)
        simpa [hns] using hq'
      unfold getAttribute
      rw [List.find?_cons_of_neg _ (by simp [hnk])]
      have hw' : w ∈ as := by
        rcases List.mem_cons.1 hw with h | h
        · exact absurd (h ▸ hwq) hq
        · exact h
      exact ih (fun x hx => hp x (List.mem_cons_of_mem a hx)) ⟨w, hw', hwq⟩

theorem getAttr_append_set {k s : String} :
    ∀ attrs : List Attr, (∀ a ∈ attrs, (a.name == k) = false) →
      getAttribute (attrs ++ [⟨none, k, s⟩]) k = some s := by
  intro attrs
  induction attrs with
  | nil =>
    intro _
    unfold getAttribute
    rw [List.nil_append, List.find?_cons_of_pos _ (by simp)]
    rfl
  | cons a as ih =>
    intro hnk
    unfold getAttribute
    rw [List.cons_append,
      List.find?_cons_of_neg _ (by simp [hnk a (List.mem_cons_self a as)])]
    exact ih (fun x hx => hnk x (List.mem_cons_of_mem a hx))

theorem getAttribute_setAttribute {attrs : List Attr} {k s : String}
    (hp : allPlain attrs) : getAttribute (setAttribute attrs k s) k = some s := by
  unfold setAttribute
  by_cases hany : attrs.any (fun a => a.ns == none && a.name == k) = true
  · rw [if_pos hany]
    rw [List.any_eq_true] at hany
    exact getAttr_map_set attrs hp hany
  · rw [if_neg hany]
    rw [List.any_eq_true] at hany
    push_neg at hany
    refine getAttr_append_set attrs (fun a ha => ?_)
    have hns : a.ns = none := hp a ha
    have := hany a ha
    simpa [hns] using this

theorem getNS_map_set {nsUri lk s : String} :
    ∀ attrs : List Attr,
      (∃ a ∈ attrs, (a.ns == some nsUri && a.name == lk) = true) →
      getAttributeNS
        (attrs.map (fun a =>
          if a.ns == some nsUri && a.name == lk then ⟨some nsUri, lk, s⟩ else a))
        nsUri lk = some s := by
  intro attrs
  induction attrs with
  | nil => rintro ⟨a, ha, _⟩; cases ha
  | cons a as ih =>
    rintro ⟨w, hw, hwq⟩
    by_cases hq : (a.ns == some nsUri && a.name == lk) = true
    · simp only [List.map_cons, hq, if_true]
      unfold getAttributeNS
      rw [List.find?_cons_of_pos _ (by simp)]
      rfl
    · have hq' : (a.ns == some nsUri && a.name == lk) = false := by simpa using hq
      simp only [List.map_cons, hq', if_false]
      unfold getAttributeNS
      rw [List.find?_cons_of_neg _ (by simp [hq'])]
      have hw' : w ∈ as := by
        rcases List.mem_cons.1 hw with h | h
        · exact absurd (h ▸ hwq) hq
        · exact h
      exact ih ⟨w, hw', hwq⟩

theorem getNS_append_set {nsUri lk s : String} :
    ∀ attrs : List Attr,
      (∀ a ∈ attrs, (a.ns == some nsUri && a.name == lk) = false) →
      getAttributeNS (attrs ++ [⟨some nsUri, lk, s⟩]) nsUri lk = some s := by
  intro attrs
  induction attrs with
  | nil =>
    intro _
    unfold getAttributeNS
    rw [List.nil_append, List.find?_cons_of_pos _ (by simp)]
    rfl
  | cons a as ih =>
    intro hno
    unfold getAttributeNS
    rw [List.cons_append,
      List.find?_cons_of_neg _ (by simp [hno a (List.mem_cons_self a as)])]
    exact ih (fun x hx => hno x (List.mem_cons_of_mem a hx))

theorem getAttributeNS_setAttributeNS {attrs : List Attr} {nsUri lk s : String} :
    getAttributeNS (setAttributeNS attrs nsUri lk s) nsUri lk = some s := by
  unfold setAttributeNS
  by_cases hany : attrs.any (fun a => a.ns == some nsUri && a.name == lk) = true
  · rw [if_pos hany]
    rw [List.any_eq_true] at hany
    exact getNS_map_set attrs hany
  · rw [if_neg hany]
    rw [List.any_eq_true] at hany
    push_neg at hany
    refine getNS_append_set attrs (fun a ha => ?_)
    simpa using hany a ha

theorem setAttributeNS_plain {attrs : List Attr} {nsUri lk s : String} :
    (setAttributeNS attrs nsUri lk s).filter (fun a => a.ns == none) =
      attrs.filter (fun a => a.ns == none) := by
  unfold setAttributeNS
  by_cases hany : attrs.any (fun a => a.ns == some nsUri && a.name == lk) = true
  · rw [if_pos hany]
    clear hany
    induction attrs with
    | nil => rfl
    | cons a as ih =>
      by_cases hq : (a.ns == some nsUri && a.name == lk) = true
      · have hns : a.ns = some nsUri := by
          have hq2 : a.ns = some nsUri ∧ a.name = lk := by simpa using hq
          exact hq2.1
        rw [List.map_cons, if_pos hq]
        rw [List.filter_cons, List.filter_cons]
        rw [if_neg (by simp), if_neg (by simp [hns])]
        exact ih
      · have hq' : (a.ns == some nsUri && a.name == lk) = false := by simpa using hq
        rw [List.map_cons, if_neg hq]
        rw [List.filter_cons, List.filter_cons]
        cases hns : (a.ns == none)
        · rw [if_neg (by simp [hns]), if_neg (by simp [hns])]
          exact ih
        · rw [if_pos rfl, if_pos rfl, ih]
  · rw [if_neg hany]
    rw [List.filter_append]
    simp

theorem bool_not_true {b : Bool} (h : b = false) : ¬(b = true) := by
  simp [h]

theorem not_removed_prop {v : AttrVal} (hrem : isRemovedVal v = false) :
    ¬(v = AttrVal.vNull ∨ v = AttrVal.vUndef ∨ v = AttrVal.vBool false) :=
  fun hor => absurd (removedVal_iff.2 hor) (bool_not_true hrem)

theorem applyAttr_removedVal {attrs : List Attr} {k : String} {v : AttrVal}
    (hrem : isRemovedVal v = true) :
    applyAttr attrs k v = removeAttrFor attrs k := by
  unfold applyAttr
  rcases Bool.eq_false_or_eq_true (booleanAttrs.contains k) with hb | hb
  · rw [if_pos hb, if_neg (bool_not_true (truthy_false_of_removedVal hrem))]
    unfold removeAttrFor
    rw [if_neg (bool_not_true (boolean_not_xlink hb))]
  · rw [if_neg (bool_not_true hb), if_pos (removedVal_iff.1 hrem)]

theorem attrAbsent_removeAttrFor {attrs : List Attr} {k : String}
    (hnd : namesNodup attrs) : attrAbsent (removeAttrFor attrs k) k = true := by
  unfold attrAbsent removeAttrFor
  rcases Bool.eq_false_or_eq_true (isXlinkName k) with hx | hx
  · rw [if_pos hx, if_pos hx]
    rw [getAttributeNS_removeAttributeNS hnd]
    rfl
  · rw [if_neg (bool_not_true hx), if_neg (bool_not_true hx)]
    rw [getAttribute_removeAttribute hnd]
    rfl

theorem lookup_cons_ne {a k : String} {b : Bool} {l : List (String × Bool)}
    (h : (a == k) = false) : List.lookup a ((k, b) :: l) = List.lookup a l := by
  simp [List.lookup, h]

theorem lookup_cons_self {a : String} {b : Bool} {l : List (String × Bool)} :
    List.lookup a ((a, b) :: l) = some b := by
  simp [List.lookup]

theorem setKlass_lookup_self {k : String} {b : Bool} :
    ∀ kl : List (String × Bool), (setKlass kl k b).lookup k = some b := by
  intro kl
  induction kl with
  | nil => simp [setKlass, List.lookup]
  | cons p ps ih =>
    by_cases hp : p.1 = k
    · simp [setKlass, hp, List.lookup]
    · simp only [setKlass]
      rw [if_neg (by simpa using hp)]
      obtain ⟨p1, p2⟩ := p
      simp only at hp
      rw [lookup_cons_ne (by simpa using Ne.symm hp)]
      exact ih

theorem setKlass_lookup_other {k c : String} {b : Bool} (hne : k ≠ c) :
    ∀ kl : List (String × Bool), (setKlass kl k b).lookup c = kl.lookup c := by
  intro kl
  induction kl with
  | nil =>
    show List.lookup c [(k, b)] = List.lookup c []
    rw [lookup_cons_ne (by simpa using Ne.symm hne)]
  | cons p ps ih =>
    obtain ⟨p1, p2⟩ := p
    by_cases hp : p1 = k
    · subst hp
      simp only [setKlass]
      rw [if_pos (by simp)]
      rw [lookup_cons_ne (by simpa using Ne.symm hne),
        lookup_cons_ne (by simpa using Ne.symm hne)]
    · simp only [setKlass]
      rw [if_neg (by simpa using hp)]
      by_cases hpc : c = p1
      · subst hpc
        rw [lookup_cons_self, lookup_cons_self]
      · rw [lookup_cons_ne (by simpa using hpc),
          lookup_cons_ne (by simpa using hpc)]
        exact ih

theorem setKlass_preserve_true {kl : List (String × Bool)} {k c : String}
    (h : kl.lookup c = some true) :
    (setKlass kl k true).lookup c = some true := by
  by_cases hkc : k = c
  · subst hkc
    exact setKlass_lookup_self kl
  · rw [setKlass_lookup_other hkc kl]
    exact h

theorem foldl_setKlass_preserve_true {c : String} :
    ∀ (segs : List String) (kl : List (String × Bool)),
      kl.lookup c = some true →
      (segs.foldl (fun a s => setKlass a s true) kl).lookup c = some true := by
  intro segs
  induction segs with
  | nil => intro kl h; exact h
  | cons s ss ih =>
    intro kl h
    exact ih (setKlass kl s true) (setKlass_preserve_true h)

theorem foldl_setKlass_mem {c : String} :
    ∀ (segs : List String) (kl : List (String × Bool)),
      c ∈ segs →
      (segs.foldl (fun a s => setKlass a s true) kl).lookup c = some true := by
  intro segs
  induction segs with
  | nil => intro kl h; cases h
  | cons s ss ih =>
    intro kl h
    rcases List.mem_cons.1 h with h | h
    · subst h
      exact foldl_setKlass_preserve_true ss (setKlass kl c true) (setKlass_lookup_self kl)
    · exact ih (setKlass kl s true) h

theorem normalize_klass (v : VNode) (hostId : Nat) (mode color : AttrVal) :
    (normalizeHostVnode v hostId mode color).klass =
      if color.truthy then
        setKlass (preColorKlass v mode)
          (componentPrefixOf (selSegments v.sel) ++ mode.jsStr ++ "-" ++ color.jsStr) true
      else preColorKlass v mode := by
  cases v
  rfl

theorem normalize_sel (v : VNode) (hostId : Nat) (mode color : AttrVal) :
    (normalizeHostVnode v hostId mode color).sel = none := by
  cases v
  rfl

theorem normalize_key (v : VNode) (hostId : Nat) (mode color : AttrVal) :
    (normalizeHostVnode v hostId mode color).key = v.key := by
  cases v
  rfl

theorem normalize_lookup_true {v : VNode} {hostId : Nat} {mode color : AttrVal} {c : String}
    (h : (preColorKlass v mode).lookup c = some true) :
    (normalizeHostVnode v hostId mode color).klass.lookup c = some true := by
  rw [normalize_klass]
  cases hct : color.truthy
  · rw [if_neg (by simp)]
    exact h
  · rw [if_pos rfl]
    exact setKlass_preserve_true h

theorem preColor_mode_lookup (v : VNode) (mode : AttrVal) :
    (preColorKlass v mode).lookup
      (componentPrefixOf (selSegments v.sel) ++ mode.jsStr) = some true :=
  setKlass_lookup_self _

theorem preColor_seg_lookup (v : VNode) (mode : AttrVal) (c : String)
    (hc : c ∈ (selSegments v.sel).drop 1) :
    (preColorKlass v mode).lookup c = some true := by
  unfold preColorKlass
  apply setKlass_preserve_true
  unfold mergedSelKlass
  have hlen : (selSegments v.sel).length > 1 := by
    rcases hs : selSegments v.sel with _ | ⟨a, as⟩
    · rw [hs] at hc; cases hc
    · rw [hs] at hc
      simp only [List.drop_succ_cons, List.drop_zero] at hc
      have : as ≠ [] := List.ne_nil_of_mem hc
      simp [List.length_cons]
      exact List.length_pos.2 this
  rw [if_pos hlen]
  exact foldl_setKlass_mem _ _ hc

theorem good_nil : GoodTrace [] := by
  intro i n h
  simp at h

theorem good_of_norel {tr : List Ev} (h : ∀ n, Ev.released n ∉ tr) : GoodTrace tr := by
  intro i n hget
  exact absurd (List.getElem?_mem hget) (h n)

theorem good_append {t1 t2 : List Ev} (h1 : GoodTrace t1) (h2 : GoodTrace t2) :
    GoodTrace (t1 ++ t2) := by
  intro i n hget
  by_cases hi : i < t1.length
  · rw [List.getElem?_append_left hi] at hget
    obtain ⟨j, hj, hgj⟩ := h1 i n hget
    exact ⟨j, hj, by rw [List.getElem?_append_left (Nat.lt_trans hj hi)]; exact hgj⟩
  · push_neg at hi
    rw [List.getElem?_append_right hi] at hget
    obtain ⟨j, hj, hgj⟩ := h2 (i - t1.length) n hget
    refine ⟨t1.length + j, by omega, ?_⟩
    rw [List.getElem?_append_right (by omega)]
    simpa using hgj

theorem good_removedTrace (v : VNode) : GoodTrace (removedTrace v) := by
  unfold removedTrace
  intro i n hget
  by_cases hi : i < ((subElms v).map Ev.destroyHook).length
  · rw [List.getElem?_append_left hi] at hget
    rw [List.getElem?_map] at hget
    cases hs : (subElms v)[i]? with
    | none => rw [hs] at hget; cases hget
    | some m => rw [hs] at hget; cases hget
  · push_neg at hi
    rw [List.getElem?_append_right hi] at hget
    rw [List.getElem?_map] at hget
    cases hs : (subElms v)[i - ((subElms v).map Ev.destroyHook).length]? with
    | none => rw [hs] at hget; cases hget
    | some m =>
      rw [hs] at hget
      have hmn : m = n := by
        have := Option.some.inj hget
        cases this
        rfl
      subst hmn
      have hmem : m ∈ subElms v := List.getElem?_mem hs
      obtain ⟨j, hjlt, hj⟩ := List.getElem_of_mem hmem
      refine ⟨j, ?_, ?_⟩
      · have : j < ((subElms v).map Ev.destroyHook).length := by simpa using hjlt
        omega
      · rw [List.getElem?_append_left (by simpa using hjlt)]
        rw [List.getElem?_map]
        rw [List.getElem?_eq_getElem hjlt]
        simp [hj]

theorem hook_of_released {tr : List Ev} (hg : GoodTrace tr) {n : Nat}
    (hmem : Ev.released n ∈ tr) : Ev.destroyHook n ∈ tr := by
  obtain ⟨i, hi⟩ := List.mem_iff_getElem?.1 hmem
  obtain ⟨j, _, hj⟩ := hg i n hi
  exact List.getElem?_mem hj

mutual
theorem createElm_norel (v : VNode) : ∀ (pns : Option String) (fresh n : Nat),
    Ev.released n ∉ (createElm v pns fresh).evs :=
  match v with
  | .mk sel key attrs klass txt children e ihB => fun pns fresh n hmem => by
    cases sel with
    | none => simp [createElm] at hmem
    | some tag =>
      simp only [createElm] at hmem
      rcases List.mem_cons.1 hmem with h | h
      · cases h
      · rcases List.mem_append.1 h with h | h
        · exact createElms_norel children
            (if tag = "foreignObject" then none else if tag = "svg" then some svgNS else pns)
            (fresh + 1) n h
        · simp at h

theorem createElms_norel (vs : List VNode) : ∀ (pns : Option String) (fresh n : Nat),
    Ev.released n ∉ (createElms vs pns fresh).evs :=
  match vs with
  | [] => fun pns fresh n hmem => by simp [createElms] at hmem
  | v :: vs => fun pns fresh n hmem => by
    simp only [createElms] at hmem
    rcases List.mem_append.1 hmem with h | h
    · exact createElm_norel v pns fresh n h
    · exact createElms_norel vs pns (createElm v pns fresh).fresh n h
end

theorem good_removal_foldr :
    ∀ rems : List VNode,
      GoodTrace (rems.foldr (fun v acc => removedTrace v ++ acc) []) := by
  intro rems
  induction rems with
  | nil => exact good_nil
  | cons v vs ihr => exact good_append (good_removedTrace v) ihr

theorem engineGood : ∀ fuel : Nat,
    (∀ old new host fresh, GoodTrace (patchVnode fuel old new host fresh).evs) ∧
    (∀ old new dom fresh, GoodTrace (patchInDom fuel old new dom fresh).evs) ∧
    (∀ oldCh newCh dom after pns fresh,
      GoodTrace (updateChildren fuel oldCh newCh dom after pns fresh).evs) := by
  intro fuel
  induction fuel with
  | zero =>
    exact ⟨fun _ _ _ _ => good_nil, fun _ _ _ _ => good_nil,
      fun _ _ _ _ _ _ => good_nil⟩
  | succ fuel ih =>
    obtain ⟨ihP, ihD, ihU⟩ := ih
    refine ⟨?_, ?_, ?_⟩
    · intro old new host fresh
      cases host with
      | htext nid s =>
        cases hnt : new.text
        · simp only [patchVnode, hnt]
          exact good_nil
        · simp only [patchVnode, hnt]
          exact good_nil
      | elem nid tag ns attrs hid cls hch =>
        exact ihU _ _ _ _ _ _
    · intro old new dom fresh
      cases hdf : domFind dom old.elmD with
      | none =>
        simp only [patchInDom, hdf]
        exact good_nil
      | some h =>
        simp only [patchInDom, hdf]
        exact ihP _ _ _ _
    · intro oldCh newCh dom after pns fresh
      cases newCh with
      | nil =>
        exact good_removal_foldr _
      | cons nS newRest =>
        cases oldCh with
        | nil =>
          exact good_of_norel (fun n => createElms_norel (nS :: newRest) pns fresh n)
        | cons o oldRest =>
          cases o with
          | none => exact ihU _ _ _ _ _ _
          | some oS =>
            simp only [updateChildren]
            split
            · exact good_nil
            · exact ihU _ _ _ _ _ _
            · split_ifs with h1 h2 h3 h4
              · exact good_append (ihD _ _ _ _) (ihU _ _ _ _ _ _)
              · exact good_append (ihD _ _ _ _) (ihU _ _ _ _ _ _)
              · exact good_append (ihD _ _ _ _) (ihU _ _ _ _ _ _)
              · exact good_append (ihD _ _ _ _) (ihU _ _ _ _ _ _)
              · split
                · exact good_append
                    (good_of_norel (fun n => createElm_norel nS pns fresh n))
                    (ihU _ _ _ _ _ _)
                · exact good_append (ihD _ _ _ _) (ihU _ _ _ _ _ _)

theorem patchGood :
    ∀ (fuel : Nat) (oldArg : Option VNode) (new : VNode) (container : HostNode)
      (fresh : Nat), GoodTrace (patch fuel oldArg new container fresh).evs := by
  intro fuel oldArg new container fresh
  cases oldArg with
  | none =>
    cases container with
    | htext nid s => exact good_nil
    | elem nid tag ns attrs hid cls hch =>
      refine good_of_norel (fun n hmem => ?_)
      rcases List.mem_cons.1 hmem with h | h
      · cases h
      · exact createElms_norel _ _ _ n h
  | some old =>
    by_cases hs : sameVnode old new = true
    · simp only [patch]
      rw [if_pos hs]
      exact (engineGood fuel).1 _ _ _ _
    · simp only [patch]
      rw [if_neg hs]
      exact good_append
        (good_of_norel (fun n => createElm_norel new none fresh n))
        (good_removedTrace old)

mutual
theorem createElm_ok (v : VNode) : ∀ (pns : Option String) (fresh : Nat),
    wellFormedV v = true →
    allAssigned (createElm v pns fresh).vnode = true ∧
    mirrors (createElm v pns fresh).vnode (createElm v pns fresh).host = true ∧
    (∀ m ∈ elemIdsH (createElm v pns fresh).host,
      Ev.createHook m ∈ (createElm v pns fresh).evs) :=
  match v with
  | .mk sel key attrs klass txt children e ihB => fun pns fresh hwf => by
    cases sel with
    | none =>
      have hch : children = [] := by
        simpa [wellFormedV, List.isEmpty_iff] using hwf
      subst hch
      refine ⟨rfl, ?_, ?_⟩
      · simp [createElm, mirrors]
      · intro m hm
        simp [createElm, elemIdsH] at hm
    | some tag =>
      have hwf' : wellFormedList children = true := by
        simpa [wellFormedV] using hwf
      have hq := createElms_ok children
        (if tag = "foreignObject" then none
          else if tag = "svg" then some svgNS else pns)
        (fresh + 1) hwf'
      obtain ⟨hA, hM, hH⟩ := hq
      refine ⟨?_, ?_, ?_⟩
      · simp [createElm, allAssigned, hA]
      · simp [createElm, mirrors, hM]
      · intro m hm
        simp only [createElm, elemIdsH] at hm ⊢
        rcases List.mem_cons.1 hm with h | h
        · subst h
          exact List.mem_cons_of_mem _ (List.mem_append_right _ (List.mem_singleton.2 rfl))
        · exact List.mem_cons_of_mem _ (List.mem_append_left _ (hH m h))

theorem createElms_ok (vs : List VNode) : ∀ (pns : Option String) (fresh : Nat),
    wellFormedList vs = true →
    allAssignedList (createElms vs pns fresh).vnodes = true ∧
    mirrorsList (createElms vs pns fresh).vnodes (createElms vs pns fresh).hosts = true ∧
    (∀ m ∈ elemIdsHList (createElms vs pns fresh).hosts,
      Ev.createHook m ∈ (createElms vs pns fresh).evs) :=
  match vs with
  | [] => fun pns fresh _ => by
    refine ⟨rfl, rfl, ?_⟩
    intro m hm
    simp [createElms, elemIdsHList] at hm
  | v :: vs => fun pns fresh hwf => by
    have hwfv : wellFormedV v = true := by
      have := (Bool.and_eq_true _ _) ▸ hwf
      exact ((by simpa [wellFormedList] using hwf : wellFormedV v = true ∧ wellFormedList vs = true)).1
    have hwfs : wellFormedList vs = true :=
      ((by simpa [wellFormedList] using hwf : wellFormedV v = true ∧ wellFormedList vs = true)).2
    obtain ⟨h1A, h1M, h1H⟩ := createElm_ok v pns fresh hwfv
    obtain ⟨h2A, h2M, h2H⟩ := createElms_ok vs pns (createElm v pns fresh).fresh hwfs
    refine ⟨?_, ?_, ?_⟩
    · simp [createElms, allAssignedList, h1A, h2A]
    · simp [createElms, mirrorsList, h1M, h2M]
    · intro m hm
      simp only [createElms, elemIdsHList] at hm ⊢
      rcases List.mem_append.1 hm with h | h
      · exact List.mem_append_left _ (h1H m h)
      · exact List.mem_append_right _ (h2H m h)
end

theorem withElm_key (v : VNode) (e : Option Nat) : (v.withElm e).key = v.key := by
  cases v; rfl

theorem withElm_sel (v : VNode) (e : Option Nat) : (v.withElm e).sel = v.sel := by
  cases v; rfl

theorem withElm_children (v : VNode) (e : Option Nat) :
    (v.withElm e).children = v.children := by
  cases v; rfl

theorem withElm_elmD (v : VNode) (x : Nat) : (v.withElm (some x)).elmD = x := by
  cases v; rfl

theorem withChildren_nil_eq (v : VNode) (h : v.children = []) :
    v.withChildren [] = v := by
  cases v with
  | mk s k a kl t ch e ihB =>
    have : ch = [] := h
    subst this
    rfl

theorem sameVnode_of_eq {o n : VNode} (h1 : o.sel = n.sel) (h2 : o.key = n.key) :
    sameVnode o n = true := by
  simp [sameVnode, h1, h2]

theorem sameVnode_false_of_key_ne {o n : VNode} (h : o.key ≠ n.key) :
    sameVnode o n = false := by
  unfold sameVnode
  have hb : (o.key == n.key) = false := by simpa using h
  rw [hb, Bool.and_false]

theorem nonHoles_nil : nonHoles [] = [] := rfl

theorem nonHoles_cons_none (l : List (Option VNode)) :
    nonHoles (none :: l) = nonHoles l := rfl

theorem nonHoles_cons_some (v : VNode) (l : List (Option VNode)) :
    nonHoles (some v :: l) = v :: nonHoles l := rfl

theorem nonHoles_append (l1 l2 : List (Option VNode)) :
    nonHoles (l1 ++ l2) = nonHoles l1 ++ nonHoles l2 := by
  simp [nonHoles, List.filterMap_append]

theorem updateChildren_nil_nil (fuel : Nat) (dom : List HostNode) (after : Option Nat)
    (pns : Option String) (fresh : Nat) :
    updateChildren fuel [] [] dom after pns fresh = ⟨dom, [], fresh, []⟩ := by
  cases fuel <;> rfl

theorem patchVnode_leaf (f : Nat) (old new : VNode) (nid : Nat) (tag : String)
    (ns : Option String) (attrs : List Attr) (hid cls : String)
    (hch : List HostNode) (fresh : Nat) (hf : 1 ≤ f)
    (ho : old.children = []) (hn : new.children = []) :
    patchVnode f old new (.elem nid tag ns attrs hid cls hch) fresh =
      ⟨.elem nid tag ns (updateAttrs old.attrs new.attrs attrs) hid
          (updateClass old.klass new.klass cls) hch,
        new.withElm (some nid), fresh, []⟩ := by
  cases f with
  | zero => omega
  | succ f =>
    show (⟨_, _, _, _⟩ : PatchOut) = _
    rw [ho, hn]
    rw [List.map_nil, updateChildren_nil_nil]
    rw [withChildren_nil_eq new hn]

theorem patchInDom_leaf (f : Nat) (old new : VNode) (dom : List HostNode)
    (nid : Nat) (tag : String) (ns : Option String) (attrs : List Attr)
    (hid cls : String) (hch : List HostNode) (fresh : Nat) (hf : 2 ≤ f)
    (ho : old.children = []) (hn : new.children = [])
    (hfind : domFind dom old.elmD = some (.elem nid tag ns attrs hid cls hch)) :
    patchInDom f old new dom fresh =
      ⟨domReplace dom old.elmD
          (.elem nid tag ns (updateAttrs old.attrs new.attrs attrs) hid
            (updateClass old.klass new.klass cls) hch),
        new.withElm (some nid), fresh, []⟩ := by
  cases f with
  | zero => omega
  | succ f =>
    simp only [patchInDom, hfind]
    rw [patchVnode_leaf f old new nid tag ns attrs hid cls hch fresh (by omega) ho hn]

theorem domFind_append_right {F : List HostNode} {i : Nat}
    (h : ∀ x ∈ F, x.nid ≠ i) (l : List HostNode) :
    domFind (F ++ l) i = domFind l i := by
  induction F with
  | nil => rfl
  | cons f fs ih =>
    unfold domFind
    rw [List.cons_append,
      List.find?_cons_of_neg _ (by simp [h f (List.mem_cons_self f fs)])]
    exact ih (fun x hx => h x (List.mem_cons_of_mem f hx))

theorem domFind_cons_self {m : HostNode} {i : Nat} (h : m.nid = i)
    (l : List HostNode) : domFind (m :: l) i = some m := by
  unfold domFind
  rw [List.find?_cons_of_pos _ (by simp [h])]

theorem domReplace_eq_of_not_mem (l : List HostNode) (i : Nat) (h' : HostNode)
    (h : ∀ x ∈ l, x.nid ≠ i) : domReplace l i h' = l := by
  induction l with
  | nil => rfl
  | cons a as ih =>
    unfold domReplace at *
    rw [List.map_cons]
    rw [if_neg (by simp [h a (List.mem_cons_self a as)])]
    rw [ih (fun x hx => h x (List.mem_cons_of_mem a hx))]

theorem domReplace_mid {F B : List HostNode} {m : HostNode} {i : Nat}
    (hF : ∀ x ∈ F, x.nid ≠ i) (hB : ∀ x ∈ B, x.nid ≠ i) (hm : m.nid = i)
    (h' : HostNode) : domReplace (F ++ m :: B) i h' = F ++ h' :: B := by
  unfold domReplace
  rw [List.map_append, List.map_cons]
  rw [if_pos (by simp [hm])]
  have hFe : F.map (fun h => if h.nid == i then h' else h) = F := by
    have := domReplace_eq_of_not_mem F i h' hF
    simpa [domReplace] using this
  have hBe : B.map (fun h => if h.nid == i then h' else h) = B := by
    have := domReplace_eq_of_not_mem B i h' hB
    simpa [domReplace] using this
  rw [hFe, hBe]

theorem domErase_eq_of_not_mem (l : List HostNode) (i : Nat)
    (h : ∀ x ∈ l, x.nid ≠ i) : domErase l i = l := by
  induction l with
  | nil => rfl
  | cons a as ih =>
    unfold domErase at *
    rw [List.filter_cons]
    rw [if_pos (by simp [h a (List.mem_cons_self a as)])]
    rw [ih (fun x hx => h x (List.mem_cons_of_mem a hx))]

theorem domErase_mid {F B : List HostNode} {m : HostNode} {i : Nat}
    (hF : ∀ x ∈ F, x.nid ≠ i) (hB : ∀ x ∈ B, x.nid ≠ i) (hm : m.nid = i) :
    domErase (F ++ m :: B) i = F ++ B := by
  unfold domErase
  rw [List.filter_append, List.filter_cons]
  rw [if_neg (by simp [hm])]
  have hFe := domErase_eq_of_not_mem F i hF
  have hBe := domErase_eq_of_not_mem B i hB
  unfold domErase at hFe hBe
  rw [hFe, hBe]

theorem domInsertBefore_none (l : List HostNode) (h : HostNode) :
    domInsertBefore l h none = l ++ [h] := by
  cases l <;> rfl

theorem domInsertBefore_append_right {F : List HostNode} {r : Nat}
    (hF : ∀ x ∈ F, x.nid ≠ r) (l : List HostNode) (h : HostNode) :
    domInsertBefore (F ++ l) h (some r) = F ++ domInsertBefore l h (some r) := by
  induction F with
  | nil => rfl
  | cons f fs ih =>
    rw [List.cons_append]
    show (if f.nid == r then _ :: _ :: _ else f :: domInsertBefore (fs ++ l) h (some r)) = _
    rw [if_neg (by simp [hF f (List.mem_cons_self f fs)])]
    rw [ih (fun x hx => hF x (List.mem_cons_of_mem f hx))]
    rfl

theorem domInsertBefore_cons_self {m : HostNode} {r : Nat} (hm : m.nid = r)
    (l : List HostNode) (h : HostNode) :
    domInsertBefore (m :: l) h (some r) = h :: m :: l := by
  show (if m.nid == r then _ else _) = _
  rw [if_pos (by simp [hm])]

theorem domNextSib_mid {F B : List HostNode} {m : HostNode} {i : Nat}
    (hF : ∀ x ∈ F, x.nid ≠ i) (hm : m.nid = i) :
    domNextSib (F ++ m :: B) i = (B.head?).map HostNode.nid := by
  induction F with
  | nil =>
    cases B with
    | nil => rfl
    | cons b bs =>
      show (if m.nid == i then some b.nid else _) = _
      rw [if_pos (by simp [hm])]
      rfl
  | cons f fs ih =>
    have hrest : fs ++ m :: B ≠ [] := by
      intro hcon
      exact absurd hcon (List.append_ne_nil_of_right_ne_nil fs (List.cons_ne_nil m B))
    rcases hfs : fs ++ m :: B with _ | ⟨d2, ds⟩
    · exact absurd hfs hrest
    · rw [List.cons_append, hfs]
      show (if f.nid == i then some d2.nid else domNextSib (d2 :: ds) i) = _
      rw [if_neg (by simp [hF f (List.mem_cons_self f fs)])]
      rw [← hfs]
      exact ih (fun x hx => hF x (List.mem_cons_of_mem f hx))

theorem matchElm_cons_eq {o n : VNode} (h : o.key = n.key) (l : List VNode) :
    matchElm (o :: l) n = o.elmD := by
  unfold matchElm
  rw [List.find?_cons_of_pos _ (by simp [h])]
  rfl

theorem matchElm_cons_ne {o n : VNode} (h : o.key ≠ n.key) (l : List VNode) :
    matchElm (o :: l) n = matchElm l n := by
  unfold matchElm
  rw [List.find?_cons_of_neg _ (by simp [h])]

theorem matchElm_congr_key {a b : VNode} (h : a.key = b.key) (l : List VNode) :
    matchElm l a = matchElm l b := by
  unfold matchElm
  rw [h]

theorem matchElm_self {l : List VNode} (hnd : (l.map VNode.key).Nodup) {o : VNode}
    (ho : o ∈ l) : matchElm l o = o.elmD := by
  induction l with
  | nil => cases ho
  | cons a as ih =>
    simp only [List.map_cons, List.nodup_cons] at hnd
    rcases List.mem_cons.1 ho with h | h
    · subst h
      exact matchElm_cons_eq rfl as
    · have hne : a.key ≠ o.key := by
        intro hk
        exact hnd.1 (hk ▸ List.mem_map.2 ⟨o, h, rfl⟩)
      rw [matchElm_cons_ne hne as]
      exact ih hnd.2 h

theorem matchElm_skip_front {l1 : List VNode} {n : VNode}
    (h : ∀ o ∈ l1, o.key ≠ n.key) (l2 : List VNode) :
    matchElm (l1 ++ l2) n = matchElm l2 n := by
  induction l1 with
  | nil => rfl
  | cons a as ih =>
    rw [List.cons_append, matchElm_cons_ne (h a (List.mem_cons_self a as)) (as ++ l2)]
    exact ih (fun o ho => h o (List.mem_cons_of_mem a ho))

theorem matchElm_erase_mid {vm n : VNode} (h : vm.key ≠ n.key) :
    ∀ l1 l2 : List VNode, matchElm (l1 ++ vm :: l2) n = matchElm (l1 ++ l2) n := by
  intro l1 l2
  induction l1 with
  | nil =>
    rw [List.nil_append, List.nil_append, matchElm_cons_ne h l2]
  | cons a as ih =>
    by_cases ha : a.key = n.key
    · rw [List.cons_append, List.cons_append, matchElm_cons_eq ha, matchElm_cons_eq ha]
    · rw [List.cons_append, List.cons_append, matchElm_cons_ne ha, matchElm_cons_ne ha]
      exact ih

theorem forall2_append_split {R : HostNode → VNode → Prop} :
    ∀ (l1 l2 : List VNode) (M : List HostNode), List.Forall₂ R M (l1 ++ l2) →
      ∃ M1 M2, M = M1 ++ M2 ∧ List.Forall₂ R M1 l1 ∧ List.Forall₂ R M2 l2 := by
  intro l1
  induction l1 with
  | nil =>
    intro l2 M h
    exact ⟨[], M, rfl, List.Forall₂.nil, by simpa using h⟩
  | cons a as ih =>
    intro l2 M h
    rw [List.cons_append] at h
    cases h with
    | cons hr hrest =>
      obtain ⟨M1, M2, hM, h1, h2⟩ := ih l2 _ hrest
      exact ⟨_ :: M1, M2, by rw [hM]; rfl, List.Forall₂.cons hr h1, h2⟩

theorem oldKeyIdx_full {k : String} :
    ∀ olds : List (Option VNode),
      some k ∈ (nonHoles olds).map VNode.key →
      ∃ (i : Nat) (vm : VNode) (X Y : List VNode),
        oldKeyIdx olds k = some i ∧
        olds.get? i = some (some vm) ∧
        vm.key = some k ∧
        nonHoles olds = X ++ vm :: Y ∧
        nonHoles (olds.set i none) = X ++ Y ∧
        (∀ x ∈ X, x.key ≠ some k) := by
  intro olds
  induction olds with
  | nil => intro h; simp [nonHoles] at h
  | cons slot rest ih =>
    intro hmem
    cases slot with
    | none =>
      rw [nonHoles_cons_none] at hmem
      obtain ⟨i, vm, X, Y, h1, h2, h3, h4, h5, h6⟩ := ih hmem
      refine ⟨i + 1, vm, X, Y, ?_, ?_, h3, ?_, ?_, h6⟩
      · show (oldKeyIdx rest k).map (· + 1) = some (i + 1)
        rw [h1]; rfl
      · simpa using h2
      · rw [nonHoles_cons_none]; exact h4
      · show nonHoles (none :: rest.set i none) = X ++ Y
        rw [nonHoles_cons_none]; exact h5
    | some v =>
      by_cases hv : v.key = some k
      · refine ⟨0, v, [], nonHoles rest, ?_, rfl, hv, ?_, ?_, ?_⟩
        · show (if v.key == some k then some 0 else _) = some 0
          rw [if_pos (by simp [hv])]
        · rw [nonHoles_cons_some]; rfl
        · show nonHoles (none :: rest) = [] ++ nonHoles rest
          rw [nonHoles_cons_none]; rfl
        · intro x hx; cases hx
      · rw [nonHoles_cons_some] at hmem
        have hmem2 : some k = v.key ∨ ∃ a ∈ nonHoles rest, a.key = some k := by
          simpa using hmem
        have hmem' : some k ∈ (nonHoles rest).map VNode.key := by
          rcases hmem2 with h | ⟨a, ha, hk⟩
          · exact absurd h.symm hv
          · exact List.mem_map.2 ⟨a, ha, hk⟩
        obtain ⟨i, vm, X, Y, h1, h2, h3, h4, h5, h6⟩ := ih hmem'
        refine ⟨i + 1, vm, v :: X, Y, ?_, ?_, h3, ?_, ?_, ?_⟩
        · show (if v.key == some k then some 0 else (oldKeyIdx rest k).map (· + 1)) = _
          rw [if_neg (by simp [hv]), h1]; rfl
        · simpa using h2
        · rw [nonHoles_cons_some, h4]; rfl
        · show nonHoles (some v :: rest.set i none) = (v :: X) ++ Y
          rw [nonHoles_cons_some, h5]; rfl
        · intro x hx
          rcases List.mem_cons.1 hx with h | h
          · subst h; exact hv
          · exact h6 x h

theorem uc_news_nil (fuel : Nat) (olds : List (Option VNode)) (dom : List HostNode)
    (after : Option Nat) (pns : Option String) (fresh : Nat) :
    updateChildren (fuel + 1) olds [] dom after pns fresh =
      ⟨(olds.filterMap id).foldl (fun d v => domErase d v.elmD) dom, [], fresh,
        (olds.filterMap id).foldr (fun v acc => removedTrace v ++ acc) []⟩ := rfl

theorem uc_skip_front (fuel : Nat) (oldRest : List (Option VNode)) (nS : VNode)
    (newRest : List VNode) (dom : List HostNode) (after : Option Nat)
    (pns : Option String) (fresh : Nat) :
    updateChildren (fuel + 1) (none :: oldRest) (nS :: newRest) dom after pns fresh =
      updateChildren fuel oldRest (nS :: newRest) dom after pns fresh := rfl

theorem uc_back_hole (fuel : Nat) (oS : VNode) (oldRest : List (Option VNode))
    (nS : VNode) (newRest : List VNode) (dom : List HostNode) (after : Option Nat)
    (pns : Option String) (fresh : Nat)
    (hlast : (some oS :: oldRest).getLast? = some none) :
    updateChildren (fuel + 1) (some oS :: oldRest) (nS :: newRest) dom after pns fresh =
      updateChildren fuel (some oS :: oldRest).dropLast (nS :: newRest) dom after pns
        fresh := by
  simp only [updateChildren]
  split
  · rename_i heq
    rw [hlast] at heq
    cases heq
  · rfl
  · rename_i heq
    rw [hlast] at heq
    cases heq

theorem uc_c1 (fuel : Nat) (oS : VNode) (oldRest : List (Option VNode)) (nS : VNode)
    (newRest : List VNode) (dom : List HostNode) (after : Option Nat)
    (pns : Option String) (fresh : Nat) (oE : VNode)
    (hlast : (some oS :: oldRest).getLast? = some (some oE))
    (h1 : sameVnode oS nS = true) :
    updateChildren (fuel + 1) (some oS :: oldRest) (nS :: newRest) dom after pns fresh =
      (let p := patchInDom fuel oS nS dom fresh
       let r := updateChildren fuel oldRest newRest p.dom after pns p.fresh
       ⟨r.dom, p.vnode :: r.vnodes, r.fresh, p.evs ++ r.evs⟩) := by
  simp only [updateChildren]
  split
  · rename_i heq; rw [hlast] at heq; cases heq
  · rename_i heq
    rw [hlast] at heq
    cases heq
  · rename_i oE' heq
    rw [hlast] at heq
    cases heq
    rw [if_pos h1]

theorem uc_c2 (fuel : Nat) (oS : VNode) (oldRest : List (Option VNode)) (nS : VNode)
    (newRest : List VNode) (dom : List HostNode) (after : Option Nat)
    (pns : Option String) (fresh : Nat) (oE nLast : VNode)
    (hlast : (some oS :: oldRest).getLast? = some (some oE))
    (hnlast : (nS :: newRest).getLast? = some nLast)
    (h1 : sameVnode oS nS = false) (h2 : sameVnode oE nLast = true) :
    updateChildren (fuel + 1) (some oS :: oldRest) (nS :: newRest) dom after pns fresh =
      (let p := patchInDom fuel oE nLast dom fresh
       let r := updateChildren fuel (some oS :: oldRest).dropLast
         (nS :: newRest).dropLast p.dom (some oE.elmD) pns p.fresh
       ⟨r.dom, r.vnodes ++ [p.vnode], r.fresh, p.evs ++ r.evs⟩) := by
  simp only [updateChildren]
  split
  · rename_i heq; rw [hlast] at heq; cases heq
  · rename_i heq; rw [hlast] at heq; cases heq
  · rename_i oE' heq
    rw [hlast] at heq
    cases heq
    rw [if_neg (by simp [h1])]
    simp only [hnlast, Option.getD_some]
    rw [if_pos h2]

theorem uc_c3 (fuel : Nat) (oS : VNode) (oldRest : List (Option VNode)) (nS : VNode)
    (newRest : List VNode) (dom : List HostNode) (after : Option Nat)
    (pns : Option String) (fresh : Nat) (oE nLast : VNode)
    (hlast : (some oS :: oldRest).getLast? = some (some oE))
    (hnlast : (nS :: newRest).getLast? = some nLast)
    (h1 : sameVnode oS nS = false) (h2 : sameVnode oE nLast = false)
    (h3 : sameVnode oS nLast = true) :
    updateChildren (fuel + 1) (some oS :: oldRest) (nS :: newRest) dom after pns fresh =
      (let p := patchInDom fuel oS nLast dom fresh
       let dom2 := domMoveBefore p.dom oS.elmD (domNextSib p.dom oE.elmD)
       let r := updateChildren fuel oldRest (nS :: newRest).dropLast dom2
         (some oS.elmD) pns p.fresh
       ⟨r.dom, r.vnodes ++ [p.vnode], r.fresh, p.evs ++ r.evs⟩) := by
  simp only [updateChildren]
  split
  · rename_i heq; rw [hlast] at heq; cases heq
  · rename_i heq; rw [hlast] at heq; cases heq
  · rename_i oE' heq
    rw [hlast] at heq
    cases heq
    rw [if_neg (by simp [h1])]
    simp only [hnlast, Option.getD_some]
    rw [if_neg (by simp [h2]), if_pos h3]

theorem uc_c4 (fuel : Nat) (oS : VNode) (oldRest : List (Option VNode)) (nS : VNode)
    (newRest : List VNode) (dom : List HostNode) (after : Option Nat)
    (pns : Option String) (fresh : Nat) (oE nLast : VNode)
    (hlast : (some oS :: oldRest).getLast? = some (some oE))
    (hnlast : (nS :: newRest).getLast? = some nLast)
    (h1 : sameVnode oS nS = false) (h2 : sameVnode oE nLast = false)
    (h3 : sameVnode oS nLast = false) (h4 : sameVnode oE nS = true) :
    updateChildren (fuel + 1) (some oS :: oldRest) (nS :: newRest) dom after pns fresh =
      (let p := patchInDom fuel oE nS dom fresh
       let dom2 := domMoveBefore p.dom oE.elmD (some oS.elmD)
       let r := updateChildren fuel (some oS :: oldRest).dropLast newRest dom2
         after pns p.fresh
       ⟨r.dom, p.vnode :: r.vnodes, r.fresh, p.evs ++ r.evs⟩) := by
  simp only [updateChildren]
  split
  · rename_i heq; rw [hlast] at heq; cases heq
  · rename_i heq; rw [hlast] at heq; cases heq
  · rename_i oE' heq
    rw [hlast] at heq
    cases heq
    rw [if_neg (by simp [h1])]
    simp only [hnlast, Option.getD_some]
    rw [if_neg (by simp [h2]), if_neg (by simp [h3]), if_pos h4]

theorem uc_c5_found (fuel : Nat) (oS : VNode) (oldRest : List (Option VNode))
    (nS : VNode) (newRest : List VNode) (dom : List HostNode) (after : Option Nat)
    (pns : Option String) (fresh : Nat) (oE vm : VNode) (k : String) (i : Nat)
    (hlast : (some oS :: oldRest).getLast? = some (some oE))
    (hnlast : (nS :: newRest).getLast? = some nLast)
    (h1 : sameVnode oS nS = false) (h2 : sameVnode oE nLast = false)
    (h3 : sameVnode oS nLast = false) (h4 : sameVnode oE nS = false)
    (hk : nS.key = some k)
    (hidx : oldKeyIdx (some oS :: oldRest) k = some i)
    (hget : (some oS :: oldRest).get? i = some (some vm)) :
    updateChildren (fuel + 1) (some oS :: oldRest) (nS :: newRest) dom after pns fresh =
      (let p := patchInDom fuel vm nS dom fresh
       let dom2 := domMoveBefore p.dom vm.elmD (some oS.elmD)
       let r := updateChildren fuel ((some oS :: oldRest).set i none) newRest dom2
         after pns p.fresh
       ⟨r.dom, p.vnode :: r.vnodes, r.fresh, p.evs ++ r.evs⟩) := by
  simp only [updateChildren]
  split
  · rename_i heq; rw [hlast] at heq; cases heq
  · rename_i heq; rw [hlast] at heq; cases heq
  · rename_i oE' heq
    rw [hlast] at heq
    cases heq
    rw [if_neg (by simp [h1])]
    simp only [hnlast, Option.getD_some]
    rw [if_neg (by simp [h2]), if_neg (by simp [h3]), if_neg (by simp [h4])]
    simp only [hk, Option.some_bind, hidx, hget, Option.getD_some]

theorem nonHoles_concat_none (l : List (Option VNode)) :
    nonHoles (l ++ [none]) = nonHoles l := by
  rw [nonHoles_append]
  simp [nonHoles]

theorem nonHoles_concat_some (l : List (Option VNode)) (v : VNode) :
    nonHoles (l ++ [some v]) = nonHoles l ++ [v] := by
  rw [nonHoles_append]
  rfl

theorem hostFor_elem {m : HostNode} {v : VNode} (h : hostFor m v) :
    ∃ tag ns attrs hid cls hch,
      m = HostNode.elem v.elmD tag ns attrs hid cls hch := by
  obtain ⟨h1, h2⟩ := h
  cases m with
  | htext nid s => simp [isElemNode] at h1
  | elem nid tag ns attrs hid cls hch =>
    refine ⟨tag, ns, attrs, hid, cls, hch, ?_⟩
    have : nid = v.elmD := h2
    rw [this]

theorem ids_facts {F Mt B : List HostNode} {m0 : HostNode}
    (h : ((F ++ (m0 :: Mt) ++ B).map HostNode.nid).Nodup) :
    (∀ x ∈ F, x.nid ≠ m0.nid) ∧ (∀ x ∈ Mt ++ B, x.nid ≠ m0.nid) := by
  have hL : (F ++ (m0 :: Mt) ++ B).map HostNode.nid
      = F.map HostNode.nid ++ m0.nid :: (Mt ++ B).map HostNode.nid := by
    simp
  rw [hL] at h
  rw [List.nodup_append] at h
  obtain ⟨h1, h2, h3⟩ := h
  constructor
  · intro x hx heq
    exact h3 (List.mem_map_of_mem _ hx) (heq ▸ List.mem_cons_self _ _)
  · intro x hx heq
    rw [List.nodup_cons] at h2
    exact h2.1 (heq ▸ List.mem_map_of_mem _ hx)

theorem forall2_append {R : HostNode → VNode → Prop} :
    ∀ {a : List HostNode} {c : List VNode} (b : List HostNode) (d : List VNode),
      List.Forall₂ R a c → List.Forall₂ R b d → List.Forall₂ R (a ++ b) (c ++ d) := by
  intro a c b d h1 h2
  induction h1 with
  | nil => simpa using h2
  | cons hr _ ih => exact List.Forall₂.cons hr ih

theorem ids_facts_last {F M1 B : List HostNode} {mE : HostNode}
    (h : ((F ++ (M1 ++ [mE]) ++ B).map HostNode.nid).Nodup) :
    (∀ x ∈ F ++ M1, x.nid ≠ mE.nid) ∧ (∀ x ∈ B, x.nid ≠ mE.nid) := by
  have hL : (F ++ (M1 ++ [mE]) ++ B).map HostNode.nid
      = (F ++ M1).map HostNode.nid ++ mE.nid :: B.map HostNode.nid := by
    simp
  rw [hL] at h
  rw [List.nodup_append] at h
  obtain ⟨h1, h2, h3⟩ := h
  constructor
  · intro x hx heq
    exact h3 (List.mem_map_of_mem _ hx) (heq ▸ List.mem_cons_self _ _)
  · intro x hx heq
    rw [List.nodup_cons] at h2
    exact h2.1 (heq ▸ List.mem_map_of_mem _ hx)


theorem ids_sep {F G : List HostNode}
    (h : ((F ++ G).map HostNode.nid).Nodup) :
    (∀ f ∈ F, ∀ g ∈ G, f.nid ≠ g.nid) ∧
      ((F.map HostNode.nid).Nodup ∧ ((G.map HostNode.nid)).Nodup) := by
  rw [List.map_append, List.nodup_append] at h
  obtain ⟨h1, h2, h3⟩ := h
  refine ⟨?_, h1, h2⟩
  intro f hf g hg hne
  exact h3 (List.mem_map_of_mem HostNode.nid hf) (hne ▸ List.mem_map_of_mem HostNode.nid hg)

theorem perm_concat_inv {α : Type} [DecidableEq α] {A B : List α} {x : α}
    (h : (A ++ [x]).Perm (B ++ [x])) : A.Perm B := by
  have hA : (A ++ [x]).Perm (x :: A) := List.perm_append_singleton x A
  have hB : (B ++ [x]).Perm (x :: B) := List.perm_append_singleton x B
  exact (hA.symm.trans (h.trans hB)).cons_inv


theorem nodup_mid {α : Type} {l1 l2 : List α} {x : α}
    (h : (l1 ++ x :: l2).Nodup) : x ∉ l1 ∧ x ∉ l2 ∧ (l1 ++ l2).Nodup := by
  rw [List.nodup_middle] at h
  rw [List.nodup_cons] at h
  exact ⟨fun hx => h.1 (List.mem_append_left _ hx),
    fun hx => h.1 (List.mem_append_right _ hx), h.2⟩

theorem not_mem_ids {l : List HostNode} {i : Nat}
    (h : i ∉ l.map HostNode.nid) : ∀ x ∈ l, x.nid ≠ i := by
  intro x hx he
  exact h (he ▸ List.mem_map_of_mem _ hx)

theorem domMoveBefore_eq {dom : List HostNode} {i : Nat} {h : HostNode}
    (hf : domFind dom i = some h) (ref : Option Nat) :
    domMoveBefore dom i ref = domInsertBefore (domErase dom i) h ref := by
  unfold domMoveBefore
  rw [hf]

theorem reorder_case1 (fuel : Nat) (ih : ReorderSpec fuel)
    (oS : VNode) (rest : List (Option VNode)) (n : VNode) (ns : List VNode)
    (F M B : List HostNode) (after : Option Nat) (pns : Option String) (fresh : Nat)
    (hfuel : (some oS :: rest).length + (n :: ns).length + 3 ≤ fuel + 1)
    (hM : List.Forall₂ hostFor M (nonHoles (some oS :: rest)))
    (hids : ((F ++ M ++ B).map HostNode.nid).Nodup)
    (hndk : ((nonHoles (some oS :: rest)).map VNode.key).Nodup)
    (hperm : ((n :: ns).map VNode.key).Perm
      ((nonHoles (some oS :: rest)).map VNode.key))
    (hndn : ((n :: ns).map VNode.key).Nodup)
    (hsel : ∀ o ∈ nonHoles (some oS :: rest), ∀ x ∈ n :: ns, o.key = x.key → o.sel = x.sel)
    (hlfo : ∀ o ∈ nonHoles (some oS :: rest), o.children = [])
    (hlfn : ∀ x ∈ n :: ns, x.children = [] ∧ x.key.isSome)
    (oE : VNode) (holgl : (some oS :: rest).getLast? = some (some oE))
    (hk1 : oS.key = n.key) :
    ∃ M' : List HostNode,
      updateChildren (fuel + 1) (some oS :: rest) (n :: ns) (F ++ M ++ B) after pns fresh =
        ⟨F ++ M' ++ B, (n :: ns).map (bindTo (nonHoles (some oS :: rest))), fresh, []⟩ ∧
      List.Forall₂ hostFor M' ((n :: ns).map (bindTo (nonHoles (some oS :: rest)))) := by
  have hNHc : nonHoles (some oS :: rest) = oS :: nonHoles rest := nonHoles_cons_some oS rest
  have hoSmem : oS ∈ nonHoles (some oS :: rest) := by
    rw [hNHc]; exact List.mem_cons_self _ _
  have hsame : sameVnode oS n = true :=
    sameVnode_of_eq (hsel oS hoSmem n (List.mem_cons_self n ns) hk1) hk1
  rw [hNHc] at hM
  cases hM with
  | cons hm0 hMt =>
  rename_i m0 Mt
  obtain ⟨tag0, ns0, attrs0, hid0, cls0, hch0, hm0e⟩ := hostFor_elem hm0
  subst hm0e
  obtain ⟨hFne, hMBne⟩ := ids_facts hids
  have hFne' : ∀ x ∈ F, x.nid ≠ oS.elmD := hFne
  have hMBne' : ∀ x ∈ Mt ++ B, x.nid ≠ oS.elmD := hMBne
  have hshape : F ++ (HostNode.elem oS.elmD tag0 ns0 attrs0 hid0 cls0 hch0 :: Mt) ++ B
      = F ++ HostNode.elem oS.elmD tag0 ns0 attrs0 hid0 cls0 hch0 :: (Mt ++ B) := by
    simp
  have hfind : domFind
      (F ++ (HostNode.elem oS.elmD tag0 ns0 attrs0 hid0 cls0 hch0 :: Mt) ++ B) oS.elmD
      = some (HostNode.elem oS.elmD tag0 ns0 attrs0 hid0 cls0 hch0) := by
    rw [hshape, domFind_append_right hFne',
      domFind_cons_self
        (show (HostNode.elem oS.elmD tag0 ns0 attrs0 hid0 cls0 hch0).nid = oS.elmD from rfl)]
  have hleafO : oS.children = [] := hlfo oS hoSmem
  have hleafN : n.children = [] := (hlfn n (List.mem_cons_self n ns)).1
  have hp := patchInDom_leaf fuel oS n
    (F ++ (HostNode.elem oS.elmD tag0 ns0 attrs0 hid0 cls0 hch0 :: Mt) ++ B)
    oS.elmD tag0 ns0 attrs0 hid0 cls0 hch0 fresh
    (by simp only [List.length_cons] at hfuel; omega) hleafO hleafN hfind
  set h' := HostNode.elem oS.elmD tag0 ns0 (updateAttrs oS.attrs n.attrs attrs0) hid0
    (updateClass oS.klass n.klass cls0) hch0 with hh'
  have hrep : domReplace
      (F ++ (HostNode.elem oS.elmD tag0 ns0 attrs0 hid0 cls0 hch0 :: Mt) ++ B) oS.elmD h'
      = (F ++ [h']) ++ Mt ++ B := by
    rw [hshape, domReplace_mid hFne' hMBne'
      (show (HostNode.elem oS.elmD tag0 ns0 attrs0 hid0 cls0 hch0).nid = oS.elmD from rfl)]
    simp
  have hfuel2 : rest.length + ns.length + 3 ≤ fuel := by
    simp only [List.length_cons] at hfuel
    omega
  have hids2 : (((F ++ [h']) ++ Mt ++ B).map HostNode.nid).Nodup := by
    have hmapeq : ((F ++ [h']) ++ Mt ++ B).map HostNode.nid
        = ((F ++ (HostNode.elem oS.elmD tag0 ns0 attrs0 hid0 cls0 hch0 :: Mt)) ++ B).map
            HostNode.nid := by
      rw [hh']
      simp [HostNode.nid]
    rw [hmapeq]
    exact hids
  have hndk2 : ((nonHoles rest).map VNode.key).Nodup := by
    rw [hNHc] at hndk
    simp only [List.map_cons, List.nodup_cons] at hndk
    exact hndk.2
  have hperm2 : (ns.map VNode.key).Perm ((nonHoles rest).map VNode.key) := by
    rw [hNHc] at hperm
    simp only [List.map_cons] at hperm
    rw [hk1] at hperm
    exact hperm.cons_inv
  have hsel2 : ∀ o ∈ nonHoles rest, ∀ x ∈ ns, o.key = x.key → o.sel = x.sel := by
    intro o ho x hx hk
    exact hsel o (by rw [hNHc]; exact List.mem_cons_of_mem _ ho) x
      (List.mem_cons_of_mem _ hx) hk
  have hlfo2 : ∀ o ∈ nonHoles rest, o.children = [] := by
    intro o ho
    exact hlfo o (by rw [hNHc]; exact List.mem_cons_of_mem _ ho)
  have hlfn2 : ∀ x ∈ ns, x.children = [] ∧ x.key.isSome :=
    fun x hx => hlfn x (List.mem_cons_of_mem _ hx)
  obtain ⟨M'', hEq, hF2⟩ := ih rest ns (F ++ [h']) Mt B after pns fresh hfuel2 hMt
    hids2 hndk2 hperm2 hsel2 hlfo2 hlfn2
  have hkn : n.key ∉ ns.map VNode.key := by
    simp only [List.map_cons, List.nodup_cons] at hndn
    exact hndn.1
  have hvn : (n :: ns).map (bindTo (nonHoles (some oS :: rest)))
      = n.withElm (some oS.elmD) :: ns.map (bindTo (nonHoles rest)) := by
    rw [hNHc, List.map_cons]
    congr 1
    · show bindTo (oS :: nonHoles rest) n = _
      unfold bindTo
      rw [matchElm_cons_eq hk1]
    · apply List.map_congr_left
      intro x hx
      show bindTo (oS :: nonHoles rest) x = bindTo (nonHoles rest) x
      have hnex : oS.key ≠ x.key := by
        intro hcon
        rw [hk1] at hcon
        exact hkn (by rw [hcon]; exact List.mem_map_of_mem VNode.key hx)
      unfold bindTo
      rw [matchElm_cons_ne hnex]
  refine ⟨h' :: M'', ?_, ?_⟩
  · rw [uc_c1 fuel oS rest n ns
      (F ++ (HostNode.elem oS.elmD tag0 ns0 attrs0 hid0 cls0 hch0 :: Mt) ++ B)
      after pns fresh oE holgl hsame]
    simp only [hp, hrep, hEq, hvn]
    simp
  · rw [hvn]
    exact List.Forall₂.cons ⟨rfl, (withElm_elmD n oS.elmD).symm⟩ hF2

theorem reorder_case2 (fuel : Nat) (ih : ReorderSpec fuel)
    (oS : VNode) (rest : List (Option VNode)) (n : VNode) (ns : List VNode)
    (F M B : List HostNode) (after : Option Nat) (pns : Option String) (fresh : Nat)
    (hfuel : (some oS :: rest).length + (n :: ns).length + 3 ≤ fuel + 1)
    (hM : List.Forall₂ hostFor M (nonHoles (some oS :: rest)))
    (hids : ((F ++ M ++ B).map HostNode.nid).Nodup)
    (hndk : ((nonHoles (some oS :: rest)).map VNode.key).Nodup)
    (hperm : ((n :: ns).map VNode.key).Perm
      ((nonHoles (some oS :: rest)).map VNode.key))
    (hndn : ((n :: ns).map VNode.key).Nodup)
    (hsel : ∀ o ∈ nonHoles (some oS :: rest), ∀ x ∈ n :: ns, o.key = x.key → o.sel = x.sel)
    (hlfo : ∀ o ∈ nonHoles (some oS :: rest), o.children = [])
    (hlfn : ∀ x ∈ n :: ns, x.children = [] ∧ x.key.isSome)
    (oE : VNode) (oInit : List (Option VNode))
    (hoF : some oS :: rest = oInit ++ [some oE])
    (nLast : VNode) (nInit : List VNode) (hnF : n :: ns = nInit ++ [nLast])
    (hk1f : oS.key ≠ n.key) (hk2 : oE.key = nLast.key) :
    ∃ M' : List HostNode,
      updateChildren (fuel + 1) (some oS :: rest) (n :: ns) (F ++ M ++ B) after pns fresh =
        ⟨F ++ M' ++ B, (n :: ns).map (bindTo (nonHoles (some oS :: rest))), fresh, []⟩ ∧
      List.Forall₂ hostFor M' ((n :: ns).map (bindTo (nonHoles (some oS :: rest)))) := by
  have holgl : (some oS :: rest).getLast? = some (some oE) := by
    rw [hoF]; exact List.getLast?_concat _
  have hngl : (n :: ns).getLast? = some nLast := by
    rw [hnF]; exact List.getLast?_concat _
  have hNHsplit : nonHoles (some oS :: rest) = nonHoles oInit ++ [oE] := by
    rw [hoF, nonHoles_concat_some]
  have hoEmem : oE ∈ nonHoles (some oS :: rest) := by
    rw [hNHsplit]; exact List.mem_append_right _ (List.mem_singleton.mpr rfl)
  have hnLmem : nLast ∈ n :: ns := by
    rw [hnF]; exact List.mem_append_right _ (List.mem_singleton.mpr rfl)
  have hsame1 : sameVnode oS n = false := sameVnode_false_of_key_ne hk1f
  have hsame2 : sameVnode oE nLast = true :=
    sameVnode_of_eq (hsel oE hoEmem nLast hnLmem hk2) hk2
  -- the middle block splits as the retained body plus the host of the old end
  rw [hNHsplit] at hM
  obtain ⟨M1, M2, hMsplit, hM1, hM2⟩ := forall2_append_split (nonHoles oInit) [oE] M hM
  subst hMsplit
  cases hM2 with
  | cons hmE hnil =>
  cases hnil
  rename_i mE
  obtain ⟨tagE, nsE, attrsE, hidE, clsE, hchE, hmEe⟩ := hostFor_elem hmE
  subst hmEe
  obtain ⟨hFM1ne, hBne⟩ := ids_facts_last hids
  have hFM1ne' : ∀ x ∈ F ++ M1, x.nid ≠ oE.elmD := hFM1ne
  have hBne' : ∀ x ∈ B, x.nid ≠ oE.elmD := hBne
  have hshape : F ++ (M1 ++ [HostNode.elem oE.elmD tagE nsE attrsE hidE clsE hchE]) ++ B
      = (F ++ M1) ++ HostNode.elem oE.elmD tagE nsE attrsE hidE clsE hchE :: B := by
    simp
  have hfind : domFind
      (F ++ (M1 ++ [HostNode.elem oE.elmD tagE nsE attrsE hidE clsE hchE]) ++ B) oE.elmD
      = some (HostNode.elem oE.elmD tagE nsE attrsE hidE clsE hchE) := by
    rw [hshape, domFind_append_right hFM1ne',
      domFind_cons_self
        (show (HostNode.elem oE.elmD tagE nsE attrsE hidE clsE hchE).nid = oE.elmD from rfl)]
  have hleafO : oE.children = [] := hlfo oE hoEmem
  have hleafN : nLast.children = [] := (hlfn nLast hnLmem).1
  have hp := patchInDom_leaf fuel oE nLast
    (F ++ (M1 ++ [HostNode.elem oE.elmD tagE nsE attrsE hidE clsE hchE]) ++ B)
    oE.elmD tagE nsE attrsE hidE clsE hchE fresh
    (by simp only [List.length_cons] at hfuel; omega) hleafO hleafN hfind
  set h' := HostNode.elem oE.elmD tagE nsE (updateAttrs oE.attrs nLast.attrs attrsE) hidE
    (updateClass oE.klass nLast.klass clsE) hchE with hh'
  have hrep : domReplace
      (F ++ (M1 ++ [HostNode.elem oE.elmD tagE nsE attrsE hidE clsE hchE]) ++ B)
      oE.elmD h' = F ++ M1 ++ h' :: B := by
    rw [hshape, domReplace_mid hFM1ne' hBne'
      (show (HostNode.elem oE.elmD tagE nsE attrsE hidE clsE hchE).nid = oE.elmD from rfl)]
  have hdlo : (some oS :: rest).dropLast = oInit := by
    rw [hoF]; exact List.dropLast_concat
  have hdln : (n :: ns).dropLast = nInit := by
    rw [hnF]; exact List.dropLast_concat
  -- the recursive call over the retained body
  have hfuel2 : oInit.length + nInit.length + 3 ≤ fuel := by
    have h1 : (some oS :: rest).length = oInit.length + 1 := by rw [hoF]; simp
    have h2 : (n :: ns).length = nInit.length + 1 := by rw [hnF]; simp
    omega
  have hids2 : ((F ++ M1 ++ h' :: B).map HostNode.nid).Nodup := by
    have hmapeq : (F ++ M1 ++ h' :: B).map HostNode.nid
        = ((F ++ (M1 ++ [HostNode.elem oE.elmD tagE nsE attrsE hidE clsE hchE]) ++ B)).map
            HostNode.nid := by
      rw [hh']
      simp [HostNode.nid]
    rw [hmapeq]
    exact hids
  have hndk2 : ((nonHoles oInit).map VNode.key).Nodup := by
    rw [hNHsplit] at hndk
    rw [List.map_append, List.nodup_append] at hndk
    exact hndk.1
  have hkEo : oE.key ∉ (nonHoles oInit).map VNode.key := by
    rw [hNHsplit] at hndk
    rw [List.map_append, List.nodup_append] at hndk
    intro hmem
    exact hndk.2.2 hmem (by simp)
  have hkLn : nLast.key ∉ nInit.map VNode.key := by
    rw [hnF] at hndn
    rw [List.map_append, List.nodup_append] at hndn
    intro hmem
    exact hndn.2.2 hmem (by simp)
  have hperm2 : (nInit.map VNode.key).Perm ((nonHoles oInit).map VNode.key) := by
    rw [hnF] at hperm
    rw [hNHsplit] at hperm
    rw [List.map_append, List.map_append] at hperm
    rw [show List.map VNode.key [oE] = [nLast.key] by simp [hk2]] at hperm
    rw [show List.map VNode.key [nLast] = [nLast.key] by simp] at hperm
    exact perm_concat_inv hperm
  have hsub_o : ∀ o ∈ nonHoles oInit, o ∈ nonHoles (some oS :: rest) := by
    intro o ho
    rw [hNHsplit]; exact List.mem_append_left _ ho
  have hsub_n : ∀ x ∈ nInit, x ∈ n :: ns := by
    intro x hx
    rw [hnF]; exact List.mem_append_left _ hx
  have hsel2 : ∀ o ∈ nonHoles oInit, ∀ x ∈ nInit, o.key = x.key → o.sel = x.sel :=
    fun o ho x hx hk => hsel o (hsub_o o ho) x (hsub_n x hx) hk
  have hlfo2 : ∀ o ∈ nonHoles oInit, o.children = [] := fun o ho => hlfo o (hsub_o o ho)
  have hlfn2 : ∀ x ∈ nInit, x.children = [] ∧ x.key.isSome :=
    fun x hx => hlfn x (hsub_n x hx)
  obtain ⟨M'', hEq, hF2⟩ := ih oInit nInit F M1 (h' :: B) (some oE.elmD) pns fresh hfuel2
    hM1 hids2 hndk2 hperm2 hsel2 hlfo2 hlfn2
  -- the bindings of the new siblings
  have hvn : (n :: ns).map (bindTo (nonHoles (some oS :: rest)))
      = nInit.map (bindTo (nonHoles oInit)) ++ [nLast.withElm (some oE.elmD)] := by
    rw [hnF, List.map_append]
    congr 1
    · apply List.map_congr_left
      intro x hx
      show bindTo (nonHoles (some oS :: rest)) x = bindTo (nonHoles oInit) x
      have hnex : oE.key ≠ x.key := by
        intro hcon
        rw [hk2] at hcon
        exact hkLn (by rw [hcon]; exact List.mem_map_of_mem VNode.key hx)
      unfold bindTo
      rw [hNHsplit]
      rw [show nonHoles oInit ++ [oE] = nonHoles oInit ++ oE :: [] from rfl]
      rw [matchElm_erase_mid hnex (nonHoles oInit) []]
      rw [List.append_nil]
    · show [bindTo (nonHoles (some oS :: rest)) nLast] = _
      unfold bindTo
      have hskip : ∀ o ∈ nonHoles oInit, o.key ≠ nLast.key := by
        intro o ho hcon
        exact hkEo (by rw [hk2, ← hcon]; exact List.mem_map_of_mem VNode.key ho)
      rw [hNHsplit]
      rw [show nonHoles oInit ++ [oE] = nonHoles oInit ++ oE :: [] from rfl]
      rw [matchElm_skip_front hskip (oE :: [])]
      rw [matchElm_cons_eq hk2]
  refine ⟨M'' ++ [h'], ?_, ?_⟩
  · rw [uc_c2 fuel oS rest n ns
      (F ++ (M1 ++ [HostNode.elem oE.elmD tagE nsE attrsE hidE clsE hchE]) ++ B)
      after pns fresh oE nLast holgl hngl hsame1 hsame2]
    simp only [hp, hrep, hdlo, hdln, hEq, hvn]
    simp
  · rw [hvn]
    exact forall2_append [h'] [nLast.withElm (some oE.elmD)] hF2
      (List.Forall₂.cons ⟨rfl, (withElm_elmD nLast oE.elmD).symm⟩ List.Forall₂.nil)

theorem reorder_case3 (fuel : Nat) (ih : ReorderSpec fuel)
    (oS : VNode) (rest : List (Option VNode)) (n : VNode) (ns : List VNode)
    (F M B : List HostNode) (after : Option Nat) (pns : Option String) (fresh : Nat)
    (hfuel : (some oS :: rest).length + (n :: ns).length + 3 ≤ fuel + 1)
    (hM : List.Forall₂ hostFor M (nonHoles (some oS :: rest)))
    (hids : ((F ++ M ++ B).map HostNode.nid).Nodup)
    (hndk : ((nonHoles (some oS :: rest)).map VNode.key).Nodup)
    (hperm : ((n :: ns).map VNode.key).Perm
      ((nonHoles (some oS :: rest)).map VNode.key))
    (hndn : ((n :: ns).map VNode.key).Nodup)
    (hsel : ∀ o ∈ nonHoles (some oS :: rest), ∀ x ∈ n :: ns, o.key = x.key → o.sel = x.sel)
    (hlfo : ∀ o ∈ nonHoles (some oS :: rest), o.children = [])
    (hlfn : ∀ x ∈ n :: ns, x.children = [] ∧ x.key.isSome)
    (oE : VNode) (oInit : List (Option VNode))
    (hoF : some oS :: rest = oInit ++ [some oE])
    (nLast : VNode) (nInit : List VNode) (hnF : n :: ns = nInit ++ [nLast])
    (hk1f : oS.key ≠ n.key) (hk2f : oE.key ≠ nLast.key) (hk3 : oS.key = nLast.key) :
    ∃ M' : List HostNode,
      updateChildren (fuel + 1) (some oS :: rest) (n :: ns) (F ++ M ++ B) after pns fresh =
        ⟨F ++ M' ++ B, (n :: ns).map (bindTo (nonHoles (some oS :: rest))), fresh, []⟩ ∧
      List.Forall₂ hostFor M' ((n :: ns).map (bindTo (nonHoles (some oS :: rest)))) := by
  have holgl : (some oS :: rest).getLast? = some (some oE) := by
    rw [hoF]; exact List.getLast?_concat _
  have hngl : (n :: ns).getLast? = some nLast := by
    rw [hnF]; exact List.getLast?_concat _
  have hNHc : nonHoles (some oS :: rest) = oS :: nonHoles rest := nonHoles_cons_some oS rest
  have hoSmem : oS ∈ nonHoles (some oS :: rest) := by
    rw [hNHc]; exact List.mem_cons_self _ _
  have hnLmem : nLast ∈ n :: ns := by
    rw [hnF]; exact List.mem_append_right _ (List.mem_singleton.mpr rfl)
  have hsame1 : sameVnode oS n = false := sameVnode_false_of_key_ne hk1f
  have hsame2 : sameVnode oE nLast = false := sameVnode_false_of_key_ne hk2f
  have hsame3 : sameVnode oS nLast = true :=
    sameVnode_of_eq (hsel oS hoSmem nLast hnLmem hk3) hk3
  have hdln : (n :: ns).dropLast = nInit := by
    rw [hnF]; exact List.dropLast_concat
  cases oInit with
  | nil =>
    exfalso
    have hcon : some oS = some oE := by
      have h0 := hoF
      rw [List.nil_append] at h0
      exact ((List.cons.injEq _ _ _ _).mp h0).1
    cases hcon
    exact hk2f hk3
  | cons o0 oInit' =>
  have hrest : rest = oInit' ++ [some oE] := by
    have h0 : some oS :: rest = o0 :: (oInit' ++ [some oE]) := hoF
    injection h0 with h1 h2
  have hrestNH : nonHoles rest = nonHoles oInit' ++ [oE] := by
    rw [hrest, nonHoles_concat_some]
  rw [hNHc] at hM
  cases hM with
  | cons hm0 hMt =>
  rename_i m0 Mt
  rw [hrestNH] at hMt
  obtain ⟨Mt1, M2, hMsplit, hM1, hM2⟩ := forall2_append_split (nonHoles oInit') [oE] Mt hMt
  subst hMsplit
  cases hM2 with
  | cons hmE hnil =>
  cases hnil
  rename_i mE
  obtain ⟨tag0, ns0, attrs0, hid0, cls0, hch0, hm0e⟩ := hostFor_elem hm0
  subst hm0e
  have hmEnid : mE.nid = oE.elmD := hmE.2
  have hMt2 : List.Forall₂ hostFor (Mt1 ++ [mE]) (nonHoles rest) := by
    rw [hrestNH]
    exact forall2_append [mE] [oE] hM1 (List.Forall₂.cons hmE List.Forall₂.nil)
  have hidseq : ((F ++ (HostNode.elem oS.elmD tag0 ns0 attrs0 hid0 cls0 hch0
        :: (Mt1 ++ [mE])) ++ B).map HostNode.nid)
      = F.map HostNode.nid ++ oS.elmD
          :: (Mt1.map HostNode.nid ++ mE.nid :: B.map HostNode.nid) := by
    simp [HostNode.nid]
  have hids' : (F.map HostNode.nid ++ oS.elmD
      :: (Mt1.map HostNode.nid ++ mE.nid :: B.map HostNode.nid)).Nodup := by
    rw [← hidseq]; exact hids
  obtain ⟨hS1, hS2, hS3⟩ := nodup_mid hids'
  have hS3' : ((F.map HostNode.nid ++ Mt1.map HostNode.nid)
      ++ mE.nid :: B.map HostNode.nid).Nodup := by
    rw [List.append_assoc]; exact hS3
  obtain ⟨hE1, hE2, hE3⟩ := nodup_mid hS3'
  have hOSne_F : ∀ x ∈ F, x.nid ≠ oS.elmD := not_mem_ids hS1
  have hOSne_MB : ∀ x ∈ (Mt1 ++ [mE]) ++ B, x.nid ≠ oS.elmD := by
    intro x hx he
    refine hS2 ?_
    rw [← he]
    rcases List.mem_append.1 hx with h | h
    · rcases List.mem_append.1 h with h | h
      · exact List.mem_append_left _ (List.mem_map_of_mem _ h)
      · rw [List.mem_singleton] at h
        subst h
        exact List.mem_append_right _ (List.mem_cons_self _ _)
    · exact List.mem_append_right _ (List.mem_cons_of_mem _ (List.mem_map_of_mem _ h))
  have hOSOE : oS.elmD ≠ oE.elmD := by
    intro he
    refine hS2 ?_
    rw [he, ← hmEnid]
    exact List.mem_append_right _ (List.mem_cons_self _ _)
  have hshape : F ++ (HostNode.elem oS.elmD tag0 ns0 attrs0 hid0 cls0 hch0
        :: (Mt1 ++ [mE])) ++ B
      = F ++ HostNode.elem oS.elmD tag0 ns0 attrs0 hid0 cls0 hch0
          :: ((Mt1 ++ [mE]) ++ B) := by
    simp
  have hfind : domFind
      (F ++ (HostNode.elem oS.elmD tag0 ns0 attrs0 hid0 cls0 hch0 :: (Mt1 ++ [mE])) ++ B)
      oS.elmD = some (HostNode.elem oS.elmD tag0 ns0 attrs0 hid0 cls0 hch0) := by
    rw [hshape, domFind_append_right hOSne_F,
      domFind_cons_self
        (show (HostNode.elem oS.elmD tag0 ns0 attrs0 hid0 cls0 hch0).nid = oS.elmD from rfl)]
  have hleafO : oS.children = [] := hlfo oS hoSmem
  have hleafN : nLast.children = [] := (hlfn nLast hnLmem).1
  have hp := patchInDom_leaf fuel oS nLast
    (F ++ (HostNode.elem oS.elmD tag0 ns0 attrs0 hid0 cls0 hch0 :: (Mt1 ++ [mE])) ++ B)
    oS.elmD tag0 ns0 attrs0 hid0 cls0 hch0 fresh
    (by simp only [List.length_cons] at hfuel; omega) hleafO hleafN hfind
  set h' := HostNode.elem oS.elmD tag0 ns0 (updateAttrs oS.attrs nLast.attrs attrs0) hid0
    (updateClass oS.klass nLast.klass cls0) hch0 with hh'
  have hrep : domReplace
      (F ++ (HostNode.elem oS.elmD tag0 ns0 attrs0 hid0 cls0 hch0 :: (Mt1 ++ [mE])) ++ B)
      oS.elmD h' = F ++ h' :: ((Mt1 ++ [mE]) ++ B) := by
    rw [hshape, domReplace_mid hOSne_F hOSne_MB
      (show (HostNode.elem oS.elmD tag0 ns0 attrs0 hid0 cls0 hch0).nid = oS.elmD from rfl)]
  have hOEne_pre : ∀ x ∈ F ++ h' :: Mt1, x.nid ≠ oE.elmD := by
    intro x hx he
    rcases List.mem_append.1 hx with h | h
    · exact hE1 (List.mem_append_left _ (by rw [hmEnid, ← he]; exact List.mem_map_of_mem _ h))
    · rcases List.mem_cons.1 h with h | h
      · subst h
        refine hOSOE ?_
        rw [show HostNode.nid h' = oS.elmD from rfl] at he
        exact he
      · exact hE1 (List.mem_append_right _
          (by rw [hmEnid, ← he]; exact List.mem_map_of_mem _ h))
  have hnext : domNextSib (F ++ h' :: ((Mt1 ++ [mE]) ++ B)) oE.elmD
      = (B.head?).map HostNode.nid := by
    have hsh2 : F ++ h' :: ((Mt1 ++ [mE]) ++ B) = (F ++ h' :: Mt1) ++ mE :: B := by
      simp
    rw [hsh2, domNextSib_mid hOEne_pre hmEnid]
  have hfind2 : domFind (F ++ h' :: ((Mt1 ++ [mE]) ++ B)) oS.elmD = some h' := by
    rw [domFind_append_right hOSne_F,
      domFind_cons_self (show HostNode.nid h' = oS.elmD from rfl)]
  have hera : domErase (F ++ h' :: ((Mt1 ++ [mE]) ++ B)) oS.elmD
      = F ++ ((Mt1 ++ [mE]) ++ B) :=
    domErase_mid hOSne_F hOSne_MB (show HostNode.nid h' = oS.elmD from rfl)
  have hins : domInsertBefore (F ++ ((Mt1 ++ [mE]) ++ B)) h' ((B.head?).map HostNode.nid)
      = F ++ (Mt1 ++ [mE]) ++ h' :: B := by
    cases B with
    | nil =>
      rw [show (([] : List HostNode).head?).map HostNode.nid = none from rfl]
      rw [domInsertBefore_none]
      simp
    | cons b B' =>
      have hpre : ∀ x ∈ F ++ (Mt1 ++ [mE]), x.nid ≠ b.nid := by
        rw [List.nodup_append] at hS3'
        intro x hx he
        have hbB : b.nid ∈ mE.nid :: (b :: B').map HostNode.nid :=
          List.mem_cons_of_mem _ (List.mem_map_of_mem _ (List.mem_cons_self _ _))
        rcases List.mem_append.1 hx with h | h
        · exact hS3'.2.2 (List.mem_append_left _ (List.mem_map_of_mem _ h))
            (by rw [he]; exact hbB)
        · rcases List.mem_append.1 h with h | h
          · exact hS3'.2.2 (List.mem_append_right _ (List.mem_map_of_mem _ h))
              (by rw [he]; exact hbB)
          · rw [List.mem_singleton] at h
            subst h
            have hnd := hS3'.2.1
            rw [List.nodup_cons] at hnd
            exact hnd.1 (by rw [he]; exact List.mem_map_of_mem _ (List.mem_cons_self _ _))
      rw [show ((b :: B').head?).map HostNode.nid = some b.nid from rfl]
      rw [show F ++ ((Mt1 ++ [mE]) ++ (b :: B')) = (F ++ (Mt1 ++ [mE])) ++ (b :: B') by simp]
      rw [domInsertBefore_append_right hpre, domInsertBefore_cons_self rfl]
  have hfuel2 : rest.length + nInit.length + 3 ≤ fuel := by
    have h2 : (n :: ns).length = nInit.length + 1 := by rw [hnF]; simp
    simp only [List.length_cons] at hfuel h2 ⊢
    omega
  have hids2 : ((F ++ (Mt1 ++ [mE]) ++ h' :: B).map HostNode.nid).Nodup := by
    have hNeq : ((F ++ (Mt1 ++ [mE]) ++ h' :: B).map HostNode.nid)
        = F.map HostNode.nid
            ++ (Mt1.map HostNode.nid ++ mE.nid :: oS.elmD :: B.map HostNode.nid) := by
      rw [hh']
      simp [HostNode.nid]
    rw [hNeq]
    have hpm : (Mt1.map HostNode.nid ++ mE.nid :: oS.elmD :: B.map HostNode.nid).Perm
        (oS.elmD :: (Mt1.map HostNode.nid ++ mE.nid :: B.map HostNode.nid)) := by
      rw [show Mt1.map HostNode.nid ++ mE.nid :: oS.elmD :: B.map HostNode.nid
          = (Mt1.map HostNode.nid ++ [mE.nid]) ++ oS.elmD :: B.map HostNode.nid by simp]
      rw [show Mt1.map HostNode.nid ++ mE.nid :: B.map HostNode.nid
          = (Mt1.map HostNode.nid ++ [mE.nid]) ++ B.map HostNode.nid by simp]
      exact List.perm_middle
    exact ((List.Perm.append_left _ hpm).nodup_iff).mpr hids'
  have hndk2 : ((nonHoles rest).map VNode.key).Nodup := by
    rw [hNHc] at hndk
    simp only [List.map_cons, List.nodup_cons] at hndk
    exact hndk.2
  have hkLn : nLast.key ∉ nInit.map VNode.key := by
    rw [hnF] at hndn
    rw [List.map_append, List.nodup_append] at hndn
    intro hmem
    exact hndn.2.2 hmem (by simp)
  have hperm2 : (nInit.map VNode.key).Perm ((nonHoles rest).map VNode.key) := by
    rw [hnF, hNHc] at hperm
    simp only [List.map_append, List.map_cons, List.map_nil] at hperm
    rw [← hk3] at hperm
    exact ((List.perm_append_singleton _ _).symm.trans hperm).cons_inv
  have hsub_o : ∀ o ∈ nonHoles rest, o ∈ nonHoles (some oS :: rest) := by
    intro o ho
    rw [hNHc]; exact List.mem_cons_of_mem _ ho
  have hsub_n : ∀ x ∈ nInit, x ∈ n :: ns := by
    intro x hx
    rw [hnF]; exact List.mem_append_left _ hx
  have hsel2 : ∀ o ∈ nonHoles rest, ∀ x ∈ nInit, o.key = x.key → o.sel = x.sel :=
    fun o ho x hx hk => hsel o (hsub_o o ho) x (hsub_n x hx) hk
  have hlfo2 : ∀ o ∈ nonHoles rest, o.children = [] := fun o ho => hlfo o (hsub_o o ho)
  have hlfn2 : ∀ x ∈ nInit, x.children = [] ∧ x.key.isSome :=
    fun x hx => hlfn x (hsub_n x hx)
  obtain ⟨M'', hEq, hF2⟩ := ih rest nInit F (Mt1 ++ [mE]) (h' :: B) (some oS.elmD) pns fresh
    hfuel2 hMt2 hids2 hndk2 hperm2 hsel2 hlfo2 hlfn2
  have hvn : (n :: ns).map (bindTo (nonHoles (some oS :: rest)))
      = nInit.map (bindTo (nonHoles rest)) ++ [nLast.withElm (some oS.elmD)] := by
    rw [hnF, List.map_append]
    congr 1
    · apply List.map_congr_left
      intro x hx
      show bindTo (nonHoles (some oS :: rest)) x = bindTo (nonHoles rest) x
      have hnex : oS.key ≠ x.key := by
        intro hcon
        rw [hk3] at hcon
        exact hkLn (by rw [hcon]; exact List.mem_map_of_mem VNode.key hx)
      unfold bindTo
      rw [hNHc, matchElm_cons_ne hnex]
    · show [bindTo (nonHoles (some oS :: rest)) nLast] = _
      unfold bindTo
      rw [hNHc, matchElm_cons_eq hk3]
  refine ⟨M'' ++ [h'], ?_, ?_⟩
  · rw [uc_c3 fuel oS rest n ns
      (F ++ (HostNode.elem oS.elmD tag0 ns0 attrs0 hid0 cls0 hch0 :: (Mt1 ++ [mE])) ++ B)
      after pns fresh oE nLast holgl hngl hsame1 hsame2 hsame3]
    simp only [hp, hrep, domMoveBefore_eq hfind2, hnext, hera, hins, hdln, hEq, hvn]
    simp
  · rw [hvn]
    exact forall2_append [h'] [nLast.withElm (some oS.elmD)] hF2
      (List.Forall₂.cons ⟨rfl, (withElm_elmD nLast oS.elmD).symm⟩ List.Forall₂.nil)

theorem reorder_case4 (fuel : Nat) (ih : ReorderSpec fuel)
    (oS : VNode) (rest : List (Option VNode)) (n : VNode) (ns : List VNode)
    (F M B : List HostNode) (after : Option Nat) (pns : Option String) (fresh : Nat)
    (hfuel : (some oS :: rest).length + (n :: ns).length + 3 ≤ fuel + 1)
    (hM : List.Forall₂ hostFor M (nonHoles (some oS :: rest)))
    (hids : ((F ++ M ++ B).map HostNode.nid).Nodup)
    (hndk : ((nonHoles (some oS :: rest)).map VNode.key).Nodup)
    (hperm : ((n :: ns).map VNode.key).Perm
      ((nonHoles (some oS :: rest)).map VNode.key))
    (hndn : ((n :: ns).map VNode.key).Nodup)
    (hsel : ∀ o ∈ nonHoles (some oS :: rest), ∀ x ∈ n :: ns, o.key = x.key → o.sel = x.sel)
    (hlfo : ∀ o ∈ nonHoles (some oS :: rest), o.children = [])
    (hlfn : ∀ x ∈ n :: ns, x.children = [] ∧ x.key.isSome)
    (oE : VNode) (oInit : List (Option VNode))
    (hoF : some oS :: rest = oInit ++ [some oE])
    (nLast : VNode) (hngl : (n :: ns).getLast? = some nLast)
    (hk1f : oS.key ≠ n.key) (hk2f : oE.key ≠ nLast.key) (hk3f : oS.key ≠ nLast.key)
    (hk4 : oE.key = n.key) :
    ∃ M' : List HostNode,
      updateChildren (fuel + 1) (some oS :: rest) (n :: ns) (F ++ M ++ B) after pns fresh =
        ⟨F ++ M' ++ B, (n :: ns).map (bindTo (nonHoles (some oS :: rest))), fresh, []⟩ ∧
      List.Forall₂ hostFor M' ((n :: ns).map (bindTo (nonHoles (some oS :: rest)))) := by
  have holgl : (some oS :: rest).getLast? = some (some oE) := by
    rw [hoF]; exact List.getLast?_concat _
  have hNHc : nonHoles (some oS :: rest) = oS :: nonHoles rest := nonHoles_cons_some oS rest
  have hsame1 : sameVnode oS n = false := sameVnode_false_of_key_ne hk1f
  have hsame2 : sameVnode oE nLast = false := sameVnode_false_of_key_ne hk2f
  have hsame3 : sameVnode oS nLast = false := sameVnode_false_of_key_ne hk3f
  cases oInit with
  | nil =>
    exfalso
    have hcon : some oS = some oE := by
      have h0 := hoF
      rw [List.nil_append] at h0
      exact ((List.cons.injEq _ _ _ _).mp h0).1
    cases hcon
    exact hk1f hk4
  | cons o0 oInit' =>
  have hrest : rest = oInit' ++ [some oE] := by
    have h0 : some oS :: rest = o0 :: (oInit' ++ [some oE]) := hoF
    injection h0 with h1 h2
  have hrestNH : nonHoles rest = nonHoles oInit' ++ [oE] := by
    rw [hrest, nonHoles_concat_some]
  have hoEmem : oE ∈ nonHoles (some oS :: rest) := by
    rw [hNHc, hrestNH]
    exact List.mem_cons_of_mem _ (List.mem_append_right _ (List.mem_singleton.mpr rfl))
  have hsame4 : sameVnode oE n = true :=
    sameVnode_of_eq (hsel oE hoEmem n (List.mem_cons_self n ns) hk4) hk4
  have hdlo : (some oS :: rest).dropLast = some oS :: oInit' := by
    rw [hrest]
    rw [show some oS :: (oInit' ++ [some oE]) = (some oS :: oInit') ++ [some oE] from rfl]
    exact List.dropLast_concat
  rw [hNHc] at hM
  cases hM with
  | cons hm0 hMt =>
  rename_i m0 Mt
  rw [hrestNH] at hMt
  obtain ⟨Mt1, M2, hMsplit, hM1, hM2⟩ := forall2_append_split (nonHoles oInit') [oE] Mt hMt
  subst hMsplit
  cases hM2 with
  | cons hmE hnil =>
  cases hnil
  rename_i mE
  obtain ⟨tagE, nsE, attrsE, hidE, clsE, hchE, hmEe⟩ := hostFor_elem hmE
  subst hmEe
  have hm0nid : m0.nid = oS.elmD := hm0.2
  have hidseq : ((F ++ (m0 :: (Mt1 ++ [HostNode.elem oE.elmD tagE nsE attrsE hidE clsE hchE]))
        ++ B).map HostNode.nid)
      = F.map HostNode.nid ++ m0.nid
          :: (Mt1.map HostNode.nid ++ oE.elmD :: B.map HostNode.nid) := by
    simp [HostNode.nid]
  have hids' : (F.map HostNode.nid ++ m0.nid
      :: (Mt1.map HostNode.nid ++ oE.elmD :: B.map HostNode.nid)).Nodup := by
    rw [← hidseq]; exact hids
  obtain ⟨hS1, hS2, hS3⟩ := nodup_mid hids'
  have hS3' : ((F.map HostNode.nid ++ Mt1.map HostNode.nid)
      ++ oE.elmD :: B.map HostNode.nid).Nodup := by
    rw [List.append_assoc]; exact hS3
  obtain ⟨hE1, hE2, hE3⟩ := nodup_mid hS3'
  have hOSne_F : ∀ x ∈ F, x.nid ≠ oS.elmD := by
    intro x hx he
    exact hS1 (by rw [hm0nid, ← he]; exact List.mem_map_of_mem _ hx)
  have hOEne_pre : ∀ x ∈ F ++ m0 :: Mt1, x.nid ≠ oE.elmD := by
    intro x hx he
    rcases List.mem_append.1 hx with h | h
    · exact hE1 (List.mem_append_left _ (by rw [← he]; exact List.mem_map_of_mem _ h))
    · rcases List.mem_cons.1 h with h | h
      · subst h
        exact hS2 (by rw [he]; exact List.mem_append_right _ (List.mem_cons_self _ _))
      · exact hE1 (List.mem_append_right _ (by rw [← he]; exact List.mem_map_of_mem _ h))
  have hBne : ∀ x ∈ B, x.nid ≠ oE.elmD := not_mem_ids hE2
  have hshape : F ++ (m0 :: (Mt1 ++ [HostNode.elem oE.elmD tagE nsE attrsE hidE clsE hchE]))
        ++ B
      = (F ++ m0 :: Mt1) ++ HostNode.elem oE.elmD tagE nsE attrsE hidE clsE hchE :: B := by
    simp
  have hfind : domFind
      (F ++ (m0 :: (Mt1 ++ [HostNode.elem oE.elmD tagE nsE attrsE hidE clsE hchE])) ++ B)
      oE.elmD = some (HostNode.elem oE.elmD tagE nsE attrsE hidE clsE hchE) := by
    rw [hshape, domFind_append_right hOEne_pre,
      domFind_cons_self
        (show (HostNode.elem oE.elmD tagE nsE attrsE hidE clsE hchE).nid = oE.elmD from rfl)]
  have hleafO : oE.children = [] := hlfo oE hoEmem
  have hleafN : n.children = [] := (hlfn n (List.mem_cons_self n ns)).1
  have hp := patchInDom_leaf fuel oE n
    (F ++ (m0 :: (Mt1 ++ [HostNode.elem oE.elmD tagE nsE attrsE hidE clsE hchE])) ++ B)
    oE.elmD tagE nsE attrsE hidE clsE hchE fresh
    (by simp only [List.length_cons] at hfuel; omega) hleafO hleafN hfind
  set h' := HostNode.elem oE.elmD tagE nsE (updateAttrs oE.attrs n.attrs attrsE) hidE
    (updateClass oE.klass n.klass clsE) hchE with hh'
  have hrep : domReplace
      (F ++ (m0 :: (Mt1 ++ [HostNode.elem oE.elmD tagE nsE attrsE hidE clsE hchE])) ++ B)
      oE.elmD h' = (F ++ m0 :: Mt1) ++ h' :: B := by
    rw [hshape, domReplace_mid hOEne_pre hBne
      (show (HostNode.elem oE.elmD tagE nsE attrsE hidE clsE hchE).nid = oE.elmD from rfl)]
  have hfind2 : domFind ((F ++ m0 :: Mt1) ++ h' :: B) oE.elmD = some h' := by
    rw [domFind_append_right hOEne_pre,
      domFind_cons_self (show HostNode.nid h' = oE.elmD from rfl)]
  have hera : domErase ((F ++ m0 :: Mt1) ++ h' :: B) oE.elmD = (F ++ m0 :: Mt1) ++ B :=
    domErase_mid hOEne_pre hBne (show HostNode.nid h' = oE.elmD from rfl)
  have hins : domInsertBefore ((F ++ m0 :: Mt1) ++ B) h' (some oS.elmD)
      = (F ++ [h']) ++ (m0 :: Mt1) ++ B := by
    rw [show (F ++ m0 :: Mt1) ++ B = F ++ (m0 :: (Mt1 ++ B)) by simp]
    rw [domInsertBefore_append_right hOSne_F, domInsertBefore_cons_self hm0nid]
    simp
  have hmove : domMoveBefore ((F ++ m0 :: Mt1) ++ h' :: B) oE.elmD (some oS.elmD)
      = (F ++ [h']) ++ (m0 :: Mt1) ++ B := by
    rw [domMoveBefore_eq hfind2, hera, hins]
  have hfuel2 : (some oS :: oInit').length + ns.length + 3 ≤ fuel := by
    have h1 : (some oS :: rest).length = (some oS :: oInit').length + 1 := by
      rw [hrest]; simp
    simp only [List.length_cons] at hfuel h1 ⊢
    omega
  have hMt2 : List.Forall₂ hostFor (m0 :: Mt1) (nonHoles (some oS :: oInit')) := by
    rw [nonHoles_cons_some]
    exact List.Forall₂.cons hm0 hM1
  have hids2 : (((F ++ [h']) ++ (m0 :: Mt1) ++ B).map HostNode.nid).Nodup := by
    have hNeq : (((F ++ [h']) ++ (m0 :: Mt1) ++ B).map HostNode.nid)
        = F.map HostNode.nid
            ++ oE.elmD :: m0.nid :: (Mt1.map HostNode.nid ++ B.map HostNode.nid) := by
      rw [hh']
      simp [HostNode.nid]
    rw [hNeq]
    have hpm : (oE.elmD :: m0.nid :: (Mt1.map HostNode.nid ++ B.map HostNode.nid)).Perm
        (m0.nid :: (Mt1.map HostNode.nid ++ oE.elmD :: B.map HostNode.nid)) :=
      (List.Perm.swap m0.nid oE.elmD _).trans (List.Perm.cons _ List.perm_middle.symm)
    exact ((List.Perm.append_left _ hpm).nodup_iff).mpr hids'
  have hndk2 : ((nonHoles (some oS :: oInit')).map VNode.key).Nodup := by
    rw [nonHoles_cons_some]
    rw [hNHc, hrestNH] at hndk
    simp only [List.map_cons, List.map_append, List.map_nil, List.nodup_cons] at hndk ⊢
    obtain ⟨h1, h2⟩ := hndk
    rw [List.nodup_append] at h2
    exact ⟨fun hm => h1 (List.mem_append_left _ hm), h2.1⟩
  have hkEo : oE.key ∉ (nonHoles oInit').map VNode.key := by
    rw [hNHc, hrestNH] at hndk
    simp only [List.map_cons, List.map_append, List.map_nil, List.nodup_cons] at hndk
    obtain ⟨h1, h2⟩ := hndk
    rw [List.nodup_append] at h2
    intro hmem
    exact h2.2.2 hmem (by simp)
  have hkn : n.key ∉ ns.map VNode.key := by
    simp only [List.map_cons, List.nodup_cons] at hndn
    exact hndn.1
  have hperm2 : (ns.map VNode.key).Perm ((nonHoles (some oS :: oInit')).map VNode.key) := by
    rw [nonHoles_cons_some]
    rw [hNHc, hrestNH] at hperm
    simp only [List.map_cons, List.map_append, List.map_nil] at hperm ⊢
    rw [hk4] at hperm
    have hstep : (oS.key :: (List.map VNode.key (nonHoles oInit') ++ [n.key])).Perm
        (n.key :: oS.key :: List.map VNode.key (nonHoles oInit')) :=
      (List.Perm.cons _ (List.perm_append_singleton _ _)).trans
        (List.Perm.swap n.key oS.key _)
    exact (hperm.trans hstep).cons_inv
  have hsub_o : ∀ o ∈ nonHoles (some oS :: oInit'), o ∈ nonHoles (some oS :: rest) := by
    intro o ho
    rw [nonHoles_cons_some] at ho
    rw [hNHc, hrestNH]
    rcases List.mem_cons.1 ho with h | h
    · rw [h]; exact List.mem_cons_self _ _
    · exact List.mem_cons_of_mem _ (List.mem_append_left _ h)
  have hsel2 : ∀ o ∈ nonHoles (some oS :: oInit'), ∀ x ∈ ns, o.key = x.key → o.sel = x.sel :=
    fun o ho x hx hk => hsel o (hsub_o o ho) x (List.mem_cons_of_mem _ hx) hk
  have hlfo2 : ∀ o ∈ nonHoles (some oS :: oInit'), o.children = [] :=
    fun o ho => hlfo o (hsub_o o ho)
  have hlfn2 : ∀ x ∈ ns, x.children = [] ∧ x.key.isSome :=
    fun x hx => hlfn x (List.mem_cons_of_mem _ hx)
  obtain ⟨M'', hEq, hF2⟩ := ih (some oS :: oInit') ns (F ++ [h']) (m0 :: Mt1) B after pns
    fresh hfuel2 hMt2 hids2 hndk2 hperm2 hsel2 hlfo2 hlfn2
  have hskipNHo : ∀ o ∈ nonHoles oInit', o.key ≠ n.key := by
    intro o ho hcon
    exact hkEo (by rw [hk4, ← hcon]; exact List.mem_map_of_mem VNode.key ho)
  have hvn : (n :: ns).map (bindTo (nonHoles (some oS :: rest)))
      = n.withElm (some oE.elmD) :: ns.map (bindTo (nonHoles (some oS :: oInit'))) := by
    rw [List.map_cons]
    congr 1
    · show bindTo (nonHoles (some oS :: rest)) n = _
      unfold bindTo
      rw [hNHc, hrestNH, matchElm_cons_ne hk1f, matchElm_skip_front hskipNHo,
        matchElm_cons_eq hk4]
    · apply List.map_congr_left
      intro x hx
      show bindTo (nonHoles (some oS :: rest)) x = bindTo (nonHoles (some oS :: oInit')) x
      have hnex : oE.key ≠ x.key := by
        intro hcon
        rw [hk4] at hcon
        exact hkn (by rw [hcon]; exact List.mem_map_of_mem VNode.key hx)
      unfold bindTo
      rw [hNHc, hrestNH, nonHoles_cons_some]
      rw [show oS :: (nonHoles oInit' ++ [oE]) = (oS :: nonHoles oInit') ++ oE :: [] from rfl]
      rw [matchElm_erase_mid hnex (oS :: nonHoles oInit') []]
      rw [List.append_nil]
  refine ⟨h' :: M'', ?_, ?_⟩
  · rw [uc_c4 fuel oS rest n ns
      (F ++ (m0 :: (Mt1 ++ [HostNode.elem oE.elmD tagE nsE attrsE hidE clsE hchE])) ++ B)
      after pns fresh oE nLast holgl hngl hsame1 hsame2 hsame3 hsame4]
    simp only [hp, hrep, hmove, hdlo, hEq, hvn]
    simp
  · rw [hvn]
    exact List.Forall₂.cons ⟨rfl, (withElm_elmD n oE.elmD).symm⟩ hF2

theorem reorder_case5 (fuel : Nat) (ih : ReorderSpec fuel)
    (oS : VNode) (rest : List (Option VNode)) (n : VNode) (ns : List VNode)
    (F M B : List HostNode) (after : Option Nat) (pns : Option String) (fresh : Nat)
    (hfuel : (some oS :: rest).length + (n :: ns).length + 3 ≤ fuel + 1)
    (hM : List.Forall₂ hostFor M (nonHoles (some oS :: rest)))
    (hids : ((F ++ M ++ B).map HostNode.nid).Nodup)
    (hndk : ((nonHoles (some oS :: rest)).map VNode.key).Nodup)
    (hperm : ((n :: ns).map VNode.key).Perm
      ((nonHoles (some oS :: rest)).map VNode.key))
    (hndn : ((n :: ns).map VNode.key).Nodup)
    (hsel : ∀ o ∈ nonHoles (some oS :: rest), ∀ x ∈ n :: ns, o.key = x.key → o.sel = x.sel)
    (hlfo : ∀ o ∈ nonHoles (some oS :: rest), o.children = [])
    (hlfn : ∀ x ∈ n :: ns, x.children = [] ∧ x.key.isSome)
    (oE : VNode) (holgl : (some oS :: rest).getLast? = some (some oE))
    (nLast : VNode) (hngl : (n :: ns).getLast? = some nLast)
    (k : String) (hk : n.key = some k)
    (hk1f : oS.key ≠ n.key) (hk2f : oE.key ≠ nLast.key) (hk3f : oS.key ≠ nLast.key)
    (hk4f : oE.key ≠ n.key) :
    ∃ M' : List HostNode,
      updateChildren (fuel + 1) (some oS :: rest) (n :: ns) (F ++ M ++ B) after pns fresh =
        ⟨F ++ M' ++ B, (n :: ns).map (bindTo (nonHoles (some oS :: rest))), fresh, []⟩ ∧
      List.Forall₂ hostFor M' ((n :: ns).map (bindTo (nonHoles (some oS :: rest)))) := by
  have hNHc : nonHoles (some oS :: rest) = oS :: nonHoles rest := nonHoles_cons_some oS rest
  have hsame1 : sameVnode oS n = false := sameVnode_false_of_key_ne hk1f
  have hsame2 : sameVnode oE nLast = false := sameVnode_false_of_key_ne hk2f
  have hsame3 : sameVnode oS nLast = false := sameVnode_false_of_key_ne hk3f
  have hsame4 : sameVnode oE n = false := sameVnode_false_of_key_ne hk4f
  have hkmem : some k ∈ (nonHoles (some oS :: rest)).map VNode.key := by
    have h0 : n.key ∈ (n :: ns).map VNode.key := by
      rw [List.map_cons]; exact List.mem_cons_self _ _
    have h1 := hperm.mem_iff.mp h0
    rw [hk] at h1
    exact h1
  obtain ⟨i, vm, X, Y, hidx, hget, hvmk, hNHX, hNHset, hXk⟩ :=
    oldKeyIdx_full (some oS :: rest) hkmem
  cases X with
  | nil =>
    exfalso
    apply hk1f
    have h0 : oS = vm := by
      rw [hNHc] at hNHX
      rw [List.nil_append] at hNHX
      exact ((List.cons.injEq _ _ _ _).mp hNHX).1
    rw [h0, hvmk]
    exact hk.symm
  | cons x0 X' =>
  have h0 : oS :: nonHoles rest = x0 :: (X' ++ vm :: Y) := by
    rw [← hNHc]; exact hNHX
  injection h0 with hx0 hNHr
  subst hx0
  rw [hNHc] at hM
  cases hM with
  | cons hm0 hMt =>
  rename_i m0 Mt
  rw [hNHr] at hMt
  obtain ⟨MX', M2, hMsplit, hMX, hM2⟩ := forall2_append_split X' (vm :: Y) Mt hMt
  subst hMsplit
  cases hM2 with
  | cons hmv hMY =>
  rename_i mv MY
  obtain ⟨tagV, nsV, attrsV, hidV, clsV, hchV, hmve⟩ := hostFor_elem hmv
  subst hmve
  have hm0nid : m0.nid = oS.elmD := hm0.2
  have hvm_mem : vm ∈ nonHoles (some oS :: rest) := by
    rw [hNHX]
    exact List.mem_append_right _ (List.mem_cons_self _ _)
  have hidseq : ((F ++ (m0 :: (MX' ++ HostNode.elem vm.elmD tagV nsV attrsV hidV clsV hchV
        :: MY)) ++ B).map HostNode.nid)
      = F.map HostNode.nid ++ m0.nid
          :: (MX'.map HostNode.nid ++ vm.elmD
            :: (MY.map HostNode.nid ++ B.map HostNode.nid)) := by
    simp [HostNode.nid]
  have hids' : (F.map HostNode.nid ++ m0.nid
      :: (MX'.map HostNode.nid ++ vm.elmD
        :: (MY.map HostNode.nid ++ B.map HostNode.nid))).Nodup := by
    rw [← hidseq]; exact hids
  obtain ⟨hS1, hS2, hS3⟩ := nodup_mid hids'
  have hS3' : ((F.map HostNode.nid ++ MX'.map HostNode.nid)
      ++ vm.elmD :: (MY.map HostNode.nid ++ B.map HostNode.nid)).Nodup := by
    rw [List.append_assoc]; exact hS3
  obtain ⟨hV1, hV2, hV3⟩ := nodup_mid hS3'
  have hOSne_F : ∀ x ∈ F, x.nid ≠ oS.elmD := by
    intro x hx he
    exact hS1 (by rw [hm0nid, ← he]; exact List.mem_map_of_mem _ hx)
  have hVne_pre : ∀ x ∈ F ++ m0 :: MX', x.nid ≠ vm.elmD := by
    intro x hx he
    rcases List.mem_append.1 hx with h | h
    · exact hV1 (List.mem_append_left _ (by rw [← he]; exact List.mem_map_of_mem _ h))
    · rcases List.mem_cons.1 h with h | h
      · subst h
        exact hS2 (by rw [he]; exact List.mem_append_right _ (List.mem_cons_self _ _))
      · exact hV1 (List.mem_append_right _ (by rw [← he]; exact List.mem_map_of_mem _ h))
  have hVne_suf : ∀ x ∈ MY ++ B, x.nid ≠ vm.elmD := by
    intro x hx he
    refine hV2 ?_
    rw [← he]
    rcases List.mem_append.1 hx with h | h
    · exact List.mem_append_left _ (List.mem_map_of_mem _ h)
    · exact List.mem_append_right _ (List.mem_map_of_mem _ h)
  have hshape : F ++ (m0 :: (MX' ++ HostNode.elem vm.elmD tagV nsV attrsV hidV clsV hchV
        :: MY)) ++ B
      = (F ++ m0 :: MX') ++ HostNode.elem vm.elmD tagV nsV attrsV hidV clsV hchV
          :: (MY ++ B) := by
    simp
  have hfind : domFind
      (F ++ (m0 :: (MX' ++ HostNode.elem vm.elmD tagV nsV attrsV hidV clsV hchV :: MY)) ++ B)
      vm.elmD = some (HostNode.elem vm.elmD tagV nsV attrsV hidV clsV hchV) := by
    rw [hshape, domFind_append_right hVne_pre,
      domFind_cons_self
        (show (HostNode.elem vm.elmD tagV nsV attrsV hidV clsV hchV).nid = vm.elmD from rfl)]
  have hleafO : vm.children = [] := hlfo vm hvm_mem
  have hleafN : n.children = [] := (hlfn n (List.mem_cons_self n ns)).1
  have hp := patchInDom_leaf fuel vm n
    (F ++ (m0 :: (MX' ++ HostNode.elem vm.elmD tagV nsV attrsV hidV clsV hchV :: MY)) ++ B)
    vm.elmD tagV nsV attrsV hidV clsV hchV fresh
    (by simp only [List.length_cons] at hfuel; omega) hleafO hleafN hfind
  set h' := HostNode.elem vm.elmD tagV nsV (updateAttrs vm.attrs n.attrs attrsV) hidV
    (updateClass vm.klass n.klass clsV) hchV with hh'
  have hrep : domReplace
      (F ++ (m0 :: (MX' ++ HostNode.elem vm.elmD tagV nsV attrsV hidV clsV hchV :: MY)) ++ B)
      vm.elmD h' = (F ++ m0 :: MX') ++ h' :: (MY ++ B) := by
    rw [hshape, domReplace_mid hVne_pre hVne_suf
      (show (HostNode.elem vm.elmD tagV nsV attrsV hidV clsV hchV).nid = vm.elmD from rfl)]
  have hfind2 : domFind ((F ++ m0 :: MX') ++ h' :: (MY ++ B)) vm.elmD = some h' := by
    rw [domFind_append_right hVne_pre,
      domFind_cons_self (show HostNode.nid h' = vm.elmD from rfl)]
  have hera : domErase ((F ++ m0 :: MX') ++ h' :: (MY ++ B)) vm.elmD
      = (F ++ m0 :: MX') ++ (MY ++ B) :=
    domErase_mid hVne_pre hVne_suf (show HostNode.nid h' = vm.elmD from rfl)
  have hins : domInsertBefore ((F ++ m0 :: MX') ++ (MY ++ B)) h' (some oS.elmD)
      = (F ++ [h']) ++ (m0 :: (MX' ++ MY)) ++ B := by
    rw [show (F ++ m0 :: MX') ++ (MY ++ B) = F ++ (m0 :: (MX' ++ (MY ++ B))) by simp]
    rw [domInsertBefore_append_right hOSne_F, domInsertBefore_cons_self hm0nid]
    simp
  have hmove : domMoveBefore ((F ++ m0 :: MX') ++ h' :: (MY ++ B)) vm.elmD (some oS.elmD)
      = (F ++ [h']) ++ (m0 :: (MX' ++ MY)) ++ B := by
    rw [domMoveBefore_eq hfind2, hera, hins]
  have hfuel2 : ((some oS :: rest).set i none).length + ns.length + 3 ≤ fuel := by
    rw [List.length_set]
    simp only [List.length_cons] at hfuel ⊢
    omega
  have hMt2 : List.Forall₂ hostFor (m0 :: (MX' ++ MY))
      (nonHoles ((some oS :: rest).set i none)) := by
    rw [hNHset]
    exact List.Forall₂.cons hm0 (forall2_append MY Y hMX hMY)
  have hids2 : (((F ++ [h']) ++ (m0 :: (MX' ++ MY)) ++ B).map HostNode.nid).Nodup := by
    have hNeq : (((F ++ [h']) ++ (m0 :: (MX' ++ MY)) ++ B).map HostNode.nid)
        = F.map HostNode.nid ++ vm.elmD :: m0.nid
            :: (MX'.map HostNode.nid ++ (MY.map HostNode.nid ++ B.map HostNode.nid)) := by
      rw [hh']
      simp [HostNode.nid]
    rw [hNeq]
    have hpm : (vm.elmD :: m0.nid
        :: (MX'.map HostNode.nid ++ (MY.map HostNode.nid ++ B.map HostNode.nid))).Perm
        (m0.nid :: (MX'.map HostNode.nid ++ vm.elmD
          :: (MY.map HostNode.nid ++ B.map HostNode.nid))) :=
      (List.Perm.swap m0.nid vm.elmD _).trans (List.Perm.cons _ List.perm_middle.symm)
    exact ((List.Perm.append_left _ hpm).nodup_iff).mpr hids'
  have hndk2 : ((nonHoles ((some oS :: rest).set i none)).map VNode.key).Nodup := by
    rw [hNHset]
    have hndk' : (((oS :: X') ++ vm :: Y).map VNode.key).Nodup := by
      rw [← hNHX]; exact hndk
    exact hndk'.sublist
      ((List.Sublist.append_left (List.Sublist.cons vm (List.Sublist.refl Y)) (oS :: X')).map VNode.key)
  have hperm2 : (ns.map VNode.key).Perm
      ((nonHoles ((some oS :: rest).set i none)).map VNode.key) := by
    rw [hNHX] at hperm
    simp only [List.map_cons, List.map_append] at hperm
    rw [hvmk, hk] at hperm
    have hstep := (hperm.trans List.perm_middle).cons_inv
    rw [hNHset]
    simp only [List.map_append, List.map_cons]
    exact hstep
  have hsub_o : ∀ o ∈ nonHoles ((some oS :: rest).set i none),
      o ∈ nonHoles (some oS :: rest) := by
    intro o ho
    rw [hNHset] at ho
    rw [hNHX]
    rcases List.mem_append.1 ho with h | h
    · exact List.mem_append_left _ h
    · exact List.mem_append_right _ (List.mem_cons_of_mem _ h)
  have hsel2 : ∀ o ∈ nonHoles ((some oS :: rest).set i none), ∀ x ∈ ns,
      o.key = x.key → o.sel = x.sel :=
    fun o ho x hx hkk => hsel o (hsub_o o ho) x (List.mem_cons_of_mem _ hx) hkk
  have hlfo2 : ∀ o ∈ nonHoles ((some oS :: rest).set i none), o.children = [] :=
    fun o ho => hlfo o (hsub_o o ho)
  have hlfn2 : ∀ x ∈ ns, x.children = [] ∧ x.key.isSome :=
    fun x hx => hlfn x (List.mem_cons_of_mem _ hx)
  obtain ⟨M'', hEq, hF2⟩ := ih ((some oS :: rest).set i none) ns (F ++ [h'])
    (m0 :: (MX' ++ MY)) B after pns fresh hfuel2 hMt2 hids2 hndk2 hperm2 hsel2 hlfo2 hlfn2
  have hkn : n.key ∉ ns.map VNode.key := by
    simp only [List.map_cons, List.nodup_cons] at hndn
    exact hndn.1
  have hvn : (n :: ns).map (bindTo (nonHoles (some oS :: rest)))
      = n.withElm (some vm.elmD)
          :: ns.map (bindTo (nonHoles ((some oS :: rest).set i none))) := by
    rw [List.map_cons]
    congr 1
    · show bindTo (nonHoles (some oS :: rest)) n = _
      unfold bindTo
      have hXn : ∀ o ∈ oS :: X', o.key ≠ n.key := by
        intro o ho hcon
        exact hXk o ho (hcon.trans hk)
      rw [hNHX, matchElm_skip_front hXn (vm :: Y), matchElm_cons_eq (hvmk.trans hk.symm)]
    · apply List.map_congr_left
      intro x hx
      show bindTo (nonHoles (some oS :: rest)) x
          = bindTo (nonHoles ((some oS :: rest).set i none)) x
      have hnex : vm.key ≠ x.key := by
        intro hcon
        rw [hvmk] at hcon
        refine hkn ?_
        rw [hk, hcon]
        exact List.mem_map_of_mem VNode.key hx
      unfold bindTo
      rw [hNHX, hNHset, matchElm_erase_mid hnex (oS :: X') Y]
  refine ⟨h' :: M'', ?_, ?_⟩
  · rw [uc_c5_found fuel oS rest n ns
      (F ++ (m0 :: (MX' ++ HostNode.elem vm.elmD tagV nsV attrsV hidV clsV hchV :: MY)) ++ B)
      after pns fresh oE vm k i holgl hngl hsame1 hsame2 hsame3 hsame4 hk hidx hget]
    simp only [hp, hrep, hmove, hEq, hvn]
    simp
  · rw [hvn]
    exact List.Forall₂.cons ⟨rfl, (withElm_elmD n vm.elmD).symm⟩ hF2

theorem updateChildren_reorder : ∀ fuel : Nat, ReorderSpec fuel := by
  intro fuel
  induction fuel with
  | zero =>
    intro olds news F M B after pns fresh hfuel
    exact absurd hfuel (by omega)
  | succ fuel ih =>
    intro olds news F M B after pns fresh hfuel hM hids hndk hperm hsel hlfo hlfn
    cases news with
    | nil =>
      have hNHk : (nonHoles olds).map VNode.key = [] := hperm.symm.eq_nil
      have hNH : nonHoles olds = [] := by
        rcases hn : nonHoles olds with _ | ⟨a, as⟩
        · rfl
        · rw [hn] at hNHk; cases hNHk
      have hMnil : M = [] := by
        rw [hNH] at hM
        cases hM
        rfl
      refine ⟨[], ?_, List.Forall₂.nil⟩
      rw [uc_news_nil]
      have h1 : olds.filterMap id = [] := hNH
      rw [h1]
      subst hMnil
      simp
    | cons n ns =>
      cases olds with
      | nil =>
        exfalso
        have heq : (n :: ns).map VNode.key = [] := hperm.eq_nil
        cases heq
      | cons slot rest =>
        cases slot with
        | none =>
          rw [uc_skip_front]
          rw [nonHoles_cons_none] at hM hndk hperm hsel hlfo ⊢
          have hfuel' : rest.length + (n :: ns).length + 3 ≤ fuel := by
            simp only [List.length_cons] at hfuel ⊢
            omega
          exact ih rest (n :: ns) F M B after pns fresh hfuel' hM hids hndk hperm hsel
            hlfo hlfn
        | some oS =>
          have hndn : ((n :: ns).map VNode.key).Nodup := hperm.nodup_iff.mpr hndk
          obtain ⟨lastO, holgl⟩ : ∃ x, (some oS :: rest).getLast? = some x :=
            ⟨_, List.getLast?_eq_getLast _ (List.cons_ne_nil _ _)⟩
          cases lastO with
          | none =>
            obtain ⟨oInit, hoF⟩ := List.getLast?_eq_some_iff.mp holgl
            rw [uc_back_hole fuel oS rest n ns (F ++ M ++ B) after pns fresh holgl]
            rw [hoF] at hM hndk hperm hsel hlfo ⊢
            rw [nonHoles_concat_none] at hM hndk hperm hsel hlfo ⊢
            rw [List.dropLast_concat]
            have hfuel' : oInit.length + (n :: ns).length + 3 ≤ fuel := by
              have h1 : (some oS :: rest).length = oInit.length + 1 := by rw [hoF]; simp
              simp only [List.length_cons] at hfuel h1 ⊢
              omega
            exact ih oInit (n :: ns) F M B after pns fresh hfuel' hM hids hndk hperm hsel
              hlfo hlfn
          | some oE =>
            obtain ⟨nLast, hngl⟩ : ∃ x, (n :: ns).getLast? = some x :=
              ⟨_, List.getLast?_eq_getLast _ (List.cons_ne_nil _ _)⟩
            by_cases hk1 : oS.key = n.key
            · exact reorder_case1 fuel ih oS rest n ns F M B after pns fresh hfuel hM hids
                hndk hperm hndn hsel hlfo hlfn oE holgl hk1
            · by_cases hk2 : oE.key = nLast.key
              · obtain ⟨oInit, hoF⟩ := List.getLast?_eq_some_iff.mp holgl
                obtain ⟨nInit, hnF⟩ := List.getLast?_eq_some_iff.mp hngl
                exact reorder_case2 fuel ih oS rest n ns F M B after pns fresh hfuel hM
                  hids hndk hperm hndn hsel hlfo hlfn oE oInit hoF nLast nInit hnF hk1 hk2
              · by_cases hk3 : oS.key = nLast.key
                · obtain ⟨oInit, hoF⟩ := List.getLast?_eq_some_iff.mp holgl
                  obtain ⟨nInit, hnF⟩ := List.getLast?_eq_some_iff.mp hngl
                  exact reorder_case3 fuel ih oS rest n ns F M B after pns fresh hfuel hM
                    hids hndk hperm hndn hsel hlfo hlfn oE oInit hoF nLast nInit hnF hk1
                    hk2 hk3
                · by_cases hk4 : oE.key = n.key
                  · obtain ⟨oInit, hoF⟩ := List.getLast?_eq_some_iff.mp holgl
                    exact reorder_case4 fuel ih oS rest n ns F M B after pns fresh hfuel hM
                      hids hndk hperm hndn hsel hlfo hlfn oE oInit hoF nLast hngl hk1 hk2
                      hk3 hk4
                  · obtain ⟨k, hkk⟩ := Option.isSome_iff_exists.mp
                      (hlfn n (List.mem_cons_self n ns)).2
                    exact reorder_case5 fuel ih oS rest n ns F M B after pns fresh hfuel hM
                      hids hndk hperm hndn hsel hlfo hlfn oE holgl nLast hngl k hkk hk1 hk2
                      hk3 hk4

theorem nonHoles_map_some (l : List VNode) : nonHoles (l.map some) = l := by
  induction l with
  | nil => rfl
  | cons a as ih =>
    rw [List.map_cons, nonHoles_cons_some, ih]

theorem forall2_ids : ∀ {M : List HostNode} {l : List VNode},
    List.Forall₂ hostFor M l → M.map HostNode.nid = l.map VNode.elmD := by
  intro M l h
  induction h with
  | nil => rfl
  | cons hr _ ih =>
    rw [List.map_cons, List.map_cons, hr.2, ih]

theorem matchElm_map_bindTo {olds : List VNode} {o : VNode} :
    ∀ news : List VNode, o.key ∈ news.map VNode.key →
      matchElm (news.map (bindTo olds)) o = matchElm olds o := by
  intro news
  induction news with
  | nil => intro h; simp at h
  | cons a as ih =>
    intro h
    by_cases ha : a.key = o.key
    · rw [List.map_cons, matchElm_cons_eq (show (bindTo olds a).key = o.key by
        rw [show (bindTo olds a).key = a.key from withElm_key a _]; exact ha)]
      rw [show (bindTo olds a).elmD = matchElm olds a from withElm_elmD a _]
      exact matchElm_congr_key ha olds
    · rw [List.map_cons, matchElm_cons_ne (show (bindTo olds a).key ≠ o.key by
        rw [show (bindTo olds a).key = a.key from withElm_key a _]; exact ha)]
      apply ih
      rw [List.map_cons] at h
      rcases List.mem_cons.1 h with h1 | h1
      · exact absurd h1.symm ha
      · exact h1

theorem patch_reorder (f : Nat) (olds news : List VNode) (M : List HostNode)
    (cid : Nat) (ct : String) (cns : Option String) (cattrs : List Attr)
    (chid ccls : String) (fresh : Nat)
    (hfuel : olds.length + news.length + 3 ≤ f)
    (hM : List.Forall₂ hostFor M olds)
    (hids : (M.map HostNode.nid).Nodup)
    (hndk : (olds.map VNode.key).Nodup)
    (hperm : (news.map VNode.key).Perm (olds.map VNode.key))
    (hsel : ∀ o ∈ olds, ∀ n ∈ news, o.key = n.key → o.sel = n.sel)
    (hlfo : ∀ o ∈ olds, o.children = [])
    (hlfn : ∀ n ∈ news, n.children = [] ∧ n.key.isSome) :
    ∃ M' : List HostNode,
      patch (f + 1) (some (rootV olds (some cid))) (rootV news none)
          (.elem cid ct cns cattrs chid ccls M) fresh =
        ⟨.elem cid ct cns cattrs chid ccls M',
         rootV (news.map (bindTo olds)) (some cid), fresh, []⟩ ∧
      List.Forall₂ hostFor M' (news.map (bindTo olds)) := by
  obtain ⟨M', hEq, hF⟩ := updateChildren_reorder f (olds.map some) news [] M []
    none (if ct = "foreignObject" then none else cns) fresh
    (by rw [List.length_map]; exact hfuel)
    (by rw [nonHoles_map_some]; exact hM)
    (by simpa using hids)
    (by rw [nonHoles_map_some]; exact hndk)
    (by rw [nonHoles_map_some]; exact hperm)
    (by rw [nonHoles_map_some]; exact hsel)
    (by rw [nonHoles_map_some]; intro o ho; exact hlfo o ho)
    hlfn
  rw [nonHoles_map_some] at hF
  refine ⟨M', ?_, hF⟩
  show (⟨.elem cid ct cns cattrs chid ccls
        (updateChildren f (olds.map some) news M none
          (if ct = "foreignObject" then none else cns) fresh).dom,
      rootV (updateChildren f (olds.map some) news M none
          (if ct = "foreignObject" then none else cns) fresh).vnodes (some cid),
      (updateChildren f (olds.map some) news M none
          (if ct = "foreignObject" then none else cns) fresh).fresh,
      (updateChildren f (olds.map some) news M none
          (if ct = "foreignObject" then none else cns) fresh).evs⟩ : PatchOut) = _
  rw [show M = [] ++ M ++ [] from by simp]
  rw [hEq]
  simp [nonHoles_map_some]

/-- Claim C1: keyed reordering is pure movement — for every keyed leaf sibling
list (arbitrary keys, attributes and classes; host references held by the
container's element children; distinct keys and host identities) patched to a
same-key permutation, the engine reorders exactly the original host nodes: the
event trace is empty (zero host nodes created and zero destroyed), the
resulting host child identities are exactly the key-matched original
references in the new order (a permutation of the original identities), and
each new sibling's vnode is bound to the host reference its key had before;
moreover patching A to B and back to A (same keys, positions reverted)
restores the original host child order with every key bound to its original
host reference.  In particular the repository scenario holds: `[a,b,c]`
patched to `[c,a,b]` gives host order `[2,0,1]` with an empty event trace and
the original per-key bindings, and patching back restores `[0,1,2]`. -/
theorem claim_c1_keyed_reordering_pure_movement :
    (∀ (f : Nat) (olds news : List VNode) (M : List HostNode)
       (cid : Nat) (ct : String) (cns : Option String) (cattrs : List Attr)
       (chid ccls : String) (fresh : Nat),
       olds.length + news.length + 3 ≤ f →
       List.Forall₂ hostFor M olds →
       (M.map HostNode.nid).Nodup →
       (olds.map VNode.key).Nodup →
       (news.map VNode.key).Perm (olds.map VNode.key) →
       (∀ o ∈ olds, ∀ n ∈ news, o.key = n.key → o.sel = n.sel) →
       (∀ o ∈ olds, o.children = [] ∧ o.key.isSome) →
       (∀ n ∈ news, n.children = [] ∧ n.key.isSome) →
       ∃ M' : List HostNode,
         patch (f + 1) (some (rootV olds (some cid))) (rootV news none)
             (.elem cid ct cns cattrs chid ccls M) fresh =
           ⟨.elem cid ct cns cattrs chid ccls M',
            rootV (news.map (bindTo olds)) (some cid), fresh, []⟩ ∧
         M'.map HostNode.nid = news.map (matchElm olds) ∧
         (M'.map HostNode.nid).Perm (M.map HostNode.nid) ∧
         List.Forall₂ hostFor M' (news.map (bindTo olds)) ∧
         (∃ M'' : List HostNode,
           patch (f + 1) (some (rootV (news.map (bindTo olds)) (some cid)))
               (rootV olds none) (.elem cid ct cns cattrs chid ccls M') fresh =
             ⟨.elem cid ct cns cattrs chid ccls M'',
              rootV (olds.map (fun o => o.withElm (some o.elmD))) (some cid), fresh, []⟩ ∧
           M''.map HostNode.nid = M.map HostNode.nid)) ∧
    childIds reorderR1.host = [0, 1, 2] ∧
    keyElms reorderR1.vnode = [("a", 0), ("b", 1), ("c", 2)] ∧
    childIds reorderR2.host = [2, 0, 1] ∧
    keyElms reorderR2.vnode = [("c", 2), ("a", 0), ("b", 1)] ∧
    reorderR2.evs = [] ∧
    childIds reorderR3.host = [0, 1, 2] ∧
    keyElms reorderR3.vnode = [("a", 0), ("b", 1), ("c", 2)] ∧
    reorderR3.evs = [] := by
  refine ⟨?_, by decide, by decide, by decide, by decide, by decide, by decide, by decide,
    by decide⟩
  intro f olds news M cid ct cns cattrs chid ccls fresh hfuel hM hids hndk hperm hsel
    hlfo hlfn
  obtain ⟨M', hEq1, hF1⟩ := patch_reorder f olds news M cid ct cns cattrs chid ccls fresh
    hfuel hM hids hndk hperm hsel (fun o ho => (hlfo o ho).1) hlfn
  have hMids : M.map HostNode.nid = olds.map VNode.elmD := forall2_ids hM
  have hM'ids : M'.map HostNode.nid = news.map (matchElm olds) := by
    rw [forall2_ids hF1, List.map_map]
    apply List.map_congr_left
    intro n hn
    exact withElm_elmD n _
  have hk1 : news.map (matchElm olds) = (news.map VNode.key).map (keyRef olds) := by
    rw [List.map_map]
    rfl
  have hk2 : olds.map VNode.elmD = (olds.map VNode.key).map (keyRef olds) := by
    rw [List.map_map]
    apply List.map_congr_left
    intro o ho
    exact (matchElm_self hndk ho).symm
  have hkeyperm : (news.map (matchElm olds)).Perm (olds.map VNode.elmD) := by
    rw [hk1, hk2]
    exact hperm.map (keyRef olds)
  have hpermids : (M'.map HostNode.nid).Perm (M.map HostNode.nid) := by
    rw [hM'ids, hMids]
    exact hkeyperm
  have hnbkeys : (news.map (bindTo olds)).map VNode.key = news.map VNode.key := by
    rw [List.map_map]
    apply List.map_congr_left
    intro n hn
    exact withElm_key n _
  have holdsE : (olds.map VNode.elmD).Nodup := by
    rw [← hMids]; exact hids
  have hmemkey : ∀ o ∈ olds, o.key ∈ news.map VNode.key := by
    intro o ho
    exact hperm.mem_iff.mpr (List.mem_map_of_mem _ ho)
  obtain ⟨M'', hEq2, hF2⟩ := patch_reorder f (news.map (bindTo olds)) olds M' cid ct cns
    cattrs chid ccls fresh
    (by rw [List.length_map]; omega)
    hF1
    (by rw [hM'ids]; exact hkeyperm.nodup_iff.mpr holdsE)
    (by rw [hnbkeys]; exact hperm.nodup_iff.mpr hndk)
    (by rw [hnbkeys]; exact hperm.symm)
    (by
      intro o' ho' n hn hkk
      obtain ⟨x, hx, hxe⟩ := List.mem_map.1 ho'
      subst hxe
      rw [show (bindTo olds x).key = x.key from withElm_key x _] at hkk
      rw [show (bindTo olds x).sel = x.sel from withElm_sel x _]
      exact (hsel n hn x hx hkk.symm).symm)
    (by
      intro o' ho'
      obtain ⟨x, hx, hxe⟩ := List.mem_map.1 ho'
      subst hxe
      rw [show (bindTo olds x).children = x.children from withElm_children x _]
      exact (hlfn x hx).1)
    hlfo
  have hback : olds.map (bindTo (news.map (bindTo olds)))
      = olds.map (fun o => o.withElm (some o.elmD)) := by
    apply List.map_congr_left
    intro o ho
    show (bindTo (news.map (bindTo olds)) o) = _
    rw [show bindTo (news.map (bindTo olds)) o
        = o.withElm (some (matchElm (news.map (bindTo olds)) o)) from rfl]
    rw [matchElm_map_bindTo news (hmemkey o ho), matchElm_self hndk ho]
  rw [hback] at hEq2
  have hM''ids : M''.map HostNode.nid = M.map HostNode.nid := by
    rw [forall2_ids hF2, hMids, List.map_map]
    apply List.map_congr_left
    intro o ho
    show VNode.elmD (bindTo (news.map (bindTo olds)) o) = o.elmD
    rw [show VNode.elmD (bindTo (news.map (bindTo olds)) o)
        = matchElm (news.map (bindTo olds)) o from withElm_elmD o _]
    rw [matchElm_map_bindTo news (hmemkey o ho)]
    exact matchElm_self hndk ho
  exact ⟨M', hEq1, hM'ids, hpermids, hF1, M'', hEq2, hM''ids⟩

theorem claim_c1_keyed_reordering_witness :
    ∃ M' : List HostNode,
      patch 10 (some (rootV wOldsC1 (some 100))) (rootV wNewsC1 none)
          (.elem 100 "div" none [] "" "" wMC1) 0 =
        ⟨.elem 100 "div" none [] "" "" M',
         rootV (wNewsC1.map (bindTo wOldsC1)) (some 100), 0, []⟩ ∧
      M'.map HostNode.nid = wNewsC1.map (matchElm wOldsC1) ∧
      (M'.map HostNode.nid).Perm (wMC1.map HostNode.nid) ∧
      List.Forall₂ hostFor M' (wNewsC1.map (bindTo wOldsC1)) ∧
      (∃ M'' : List HostNode,
        patch 10 (some (rootV (wNewsC1.map (bindTo wOldsC1)) (some 100)))
            (rootV wOldsC1 none) (.elem 100 "div" none [] "" "" M') 0 =
          ⟨.elem 100 "div" none [] "" "" M'',
           rootV (wOldsC1.map (fun o => o.withElm (some o.elmD))) (some 100), 0, []⟩ ∧
        M''.map HostNode.nid = wMC1.map HostNode.nid) :=
  claim_c1_keyed_reordering_pure_movement.1 9 wOldsC1 wNewsC1 wMC1 100 "div" none [] "" ""
    0 (by decide)
    (List.Forall₂.cons ⟨rfl, rfl⟩ (List.Forall₂.cons ⟨rfl, rfl⟩
      (List.Forall₂.cons ⟨rfl, rfl⟩ List.Forall₂.nil)))
    (by decide) (by decide) (by decide) (by decide)
    (by
      intro o ho
      simp only [wOldsC1, List.mem_cons, List.not_mem_nil, or_false] at ho
      rcases ho with h | h | h <;> subst h <;> exact ⟨rfl, rfl⟩)
    (by
      intro n hn
      simp only [wNewsC1, List.mem_cons, List.not_mem_nil, or_false] at hn
      rcases hn with h | h | h <;> subst h <;> exact ⟨rfl, rfl⟩)

/-- Claim C2: for every attribute whose property value is `false`, `null` or
`undefined`, the attribute is absent on the host node after the module runs,
including when it was previously present; in particular patching
`build('div', {href: null, minlength: 0, value: false})` onto an empty host
`div` leaves `href` and `value` absent while `minlength` (a non-boolean
attribute with falsy value `0`) is present with value `"0"`. -/
theorem claim_c2_falsy_values_remove_attributes :
    (∀ (attrs : List Attr) (k : String) (v : AttrVal),
        namesNodup attrs → isRemovedVal v = true →
        attrAbsent (applyAttr attrs k v) k = true) ∧
    getAttribute (patch 50 none c2new emptyDiv 0).host.attrs "href" = none ∧
    getAttribute (patch 50 none c2new emptyDiv 0).host.attrs "minlength" = some "0" ∧
    getAttribute (patch 50 none c2new emptyDiv 0).host.attrs "value" = none := by
  refine ⟨fun attrs k v hnd hrem => ?_, by decide, by decide, by decide⟩
  rw [applyAttr_removedVal hrem]
  exact attrAbsent_removeAttrFor hnd

theorem claim_c2_witness :
    namesNodup [Attr.mk none "href" "/x"] ∧ isRemovedVal .vNull = true ∧
    attrAbsent (applyAttr [Attr.mk none "href" "/x"] "href" .vNull) "href" = true :=
  ⟨by unfold namesNodup; decide, by decide,
   claim_c2_falsy_values_remove_attributes.1 [Attr.mk none "href" "/x"] "href" .vNull
     (by unfold namesNodup; decide) (by decide)⟩

/-- Claim C3: for every name on the boolean-attribute allow-list, the value
`true` yields the attribute present with the empty string, and a truthy
string or number value yields the attribute present with that value's string
form; for every plain (non-allow-list, non-namespaced) attribute name with a
value that is actually set (not one of the removing values
`false`/`null`/`undefined`), the attribute equals the string form of the
value — together with the repository's two attribute-test scenarios. -/
theorem claim_c3_boolean_allowlist_and_plain_attrs :
    (∀ (attrs : List Attr) (k : String), allPlain attrs →
        booleanAttrs.contains k = true →
        getAttribute (applyAttr attrs k (.vBool true)) k = some "") ∧
    (∀ (attrs : List Attr) (k s : String), allPlain attrs →
        booleanAttrs.contains k = true → s ≠ "" →
        getAttribute (applyAttr attrs k (.vStr s)) k = some s) ∧
    (∀ (attrs : List Attr) (k : String) (n : Int), allPlain attrs →
        booleanAttrs.contains k = true → n ≠ 0 →
        getAttribute (applyAttr attrs k (.vNum n)) k = some (toString n)) ∧
    (∀ (attrs : List Attr) (k : String) (v : AttrVal), allPlain attrs →
        booleanAttrs.contains k = false → isXlinkName k = false →
        isRemovedVal v = false →
        getAttribute (applyAttr attrs k v) k = some v.jsStr) ∧
    getAttribute (patch 50 none c3new1 emptyDiv 0).host.attrs "required" = some "" ∧
    getAttribute (patch 50 none c3new1 emptyDiv 0).host.attrs "readonly" = some "1" ∧
    getAttribute (patch 50 none c3new1 emptyDiv 0).host.attrs "noresize" = some "truthy" ∧
    getAttribute (patch 50 none c3new2 emptyDiv 0).host.attrs "href" = some "/foo" ∧
    getAttribute (patch 50 none c3new2 emptyDiv 0).host.attrs "minlength" = some "1" ∧
    getAttribute (patch 50 none c3new2 emptyDiv 0).host.attrs "value" = some "" := by
  refine ⟨fun attrs k hp hb => ?_, fun attrs k s hp hb hs => ?_,
    fun attrs k n hp hb hn => ?_, fun attrs k v hp hb hx hrem => ?_,
    by decide, by decide, by decide, by decide, by decide, by decide⟩
  · unfold applyAttr
    rw [if_pos hb,
      if_pos (show AttrVal.truthy (.vBool true) = true from rfl),
      if_pos (show (AttrVal.vBool true : AttrVal) = .vBool true from rfl)]
    exact getAttribute_setAttribute hp
  · unfold applyAttr
    rw [if_pos hb,
      if_pos (show AttrVal.truthy (.vStr s) = true by simp [AttrVal.truthy, hs]),
      if_neg (show ¬((AttrVal.vStr s : AttrVal) = .vBool true) by simp)]
    exact getAttribute_setAttribute hp
  · unfold applyAttr
    rw [if_pos hb,
      if_pos (show AttrVal.truthy (.vNum n) = true by simp [AttrVal.truthy, hn]),
      if_neg (show ¬((AttrVal.vNum n : AttrVal) = .vBool true) by simp)]
    exact getAttribute_setAttribute hp
  · unfold applyAttr
    rw [if_neg (bool_not_true hb), if_neg (not_removed_prop hrem),
      if_neg (bool_not_true hx)]
    exact getAttribute_setAttribute hp

theorem claim_c3_witness :
    allPlain ([] : List Attr) ∧ booleanAttrs.contains "required" = true ∧
    getAttribute (applyAttr [] "required" (.vBool true)) "required" = some "" :=
  ⟨fun a ha => absurd ha (List.not_mem_nil a), by decide,
   claim_c3_boolean_allowlist_and_plain_attrs.1 [] "required"
     (fun a ha => absurd ha (List.not_mem_nil a)) (by decide)⟩

/-- Claim C4: attribute names carrying the `xlink:` prefix are applied through
the namespaced set/get/has operations against the fixed xlink namespace URI
rather than the plain attribute API (the plain attribute set is untouched),
and patching `build('svg', {}, build('div', {'xlink:href': '/test'}))` into an
SVG-namespace host yields exactly one nested child whose host node reads
`/test` for `href` through both the default accessor and the xlink-namespace
accessor. -/
theorem claim_c4_xlink_attributes_namespaced :
    (∀ (attrs : List Attr) (k : String) (v : AttrVal),
        isXlinkName k = true → isRemovedVal v = false →
        getAttributeNS (applyAttr attrs k v) xlinkNS (stripXlink k) = some v.jsStr ∧
        (applyAttr attrs k v).filter (fun a => a.ns == none) =
          attrs.filter (fun a => a.ns == none)) ∧
    (patch 50 none c4new svgHost 0).host.children.length = 1 ∧
    ((patch 50 none c4new svgHost 0).host.children.map
      (fun h => getAttribute h.attrs "href")) = [some "/test"] ∧
    ((patch 50 none c4new svgHost 0).host.children.map
      (fun h => getAttributeNS h.attrs xlinkNS "href")) = [some "/test"] := by
  refine ⟨fun attrs k v hx hrem => ?_, by decide, by decide, by decide⟩
  have hb : booleanAttrs.contains k = false := by
    rcases Bool.eq_false_or_eq_true (booleanAttrs.contains k) with h | h
    · exact absurd (boolean_not_xlink h) (by simp [hx])
    · exact h
  have happ : applyAttr attrs k v = setAttributeNS attrs xlinkNS (stripXlink k) v.jsStr := by
    unfold applyAttr
    rw [if_neg (bool_not_true hb), if_neg (not_removed_prop hrem), if_pos hx]
  rw [happ]
  exact ⟨getAttributeNS_setAttributeNS, setAttributeNS_plain⟩

theorem claim_c4_witness :
    isXlinkName "xlink:href" = true ∧ isRemovedVal (.vStr "/test") = false ∧
    (getAttributeNS (applyAttr [] "xlink:href" (.vStr "/test")) xlinkNS
        (stripXlink "xlink:href") = some "/test" ∧
      (applyAttr [] "xlink:href" (.vStr "/test")).filter (fun a => a.ns == none) =
        ([] : List Attr).filter (fun a => a.ns == none)) :=
  ⟨by decide, by decide,
   claim_c4_xlink_attributes_namespaced.1 [] "xlink:href" (.vStr "/test")
     (by decide) (by decide)⟩

/-- Claim C5: for every node removed from the host tree during a patch, the
module destroy hooks are invoked before that node's reference is released
(every trace a patch emits is a `GoodTrace`); in a replace transition every
node of the removed subtree receives its destroy hook and its release; and no
removed node skips destruction hooks (every released reference has a destroy
hook somewhere in the same trace). -/
theorem claim_c5_destroy_hooks_before_release :
    (∀ (fuel : Nat) (oldArg : Option VNode) (new : VNode) (container : HostNode)
        (fresh : Nat), GoodTrace (patch fuel oldArg new container fresh).evs) ∧
    (∀ (fuel : Nat) (old new : VNode) (container : HostNode) (fresh : Nat),
        sameVnode old new = false → ∀ n ∈ subElms old,
          Ev.destroyHook n ∈ (patch fuel (some old) new container fresh).evs ∧
          Ev.released n ∈ (patch fuel (some old) new container fresh).evs) ∧
    (∀ (fuel : Nat) (oldArg : Option VNode) (new : VNode) (container : HostNode)
        (fresh n : Nat),
        Ev.released n ∈ (patch fuel oldArg new container fresh).evs →
        Ev.destroyHook n ∈ (patch fuel oldArg new container fresh).evs) := by
  refine ⟨patchGood, ?_, ?_⟩
  · intro fuel old new container fresh hs n hmem
    simp only [patch]
    rw [if_neg (by simp [hs])]
    constructor
    · refine List.mem_append_right _ ?_
      unfold removedTrace
      exact List.mem_append_left _ (List.mem_map_of_mem Ev.destroyHook hmem)
    · refine List.mem_append_right _ ?_
      unfold removedTrace
      exact List.mem_append_right _ (List.mem_map_of_mem Ev.released hmem)
  · intro fuel oldArg new container fresh n hmem
    exact hook_of_released (patchGood fuel oldArg new container fresh) hmem

theorem claim_c5_witness :
    sameVnode replacedOldW replacedNewW = false ∧ 3 ∈ subElms replacedOldW ∧
    (Ev.destroyHook 3 ∈ (patch 10 (some replacedOldW) replacedNewW containerW 0).evs ∧
      Ev.released 3 ∈ (patch 10 (some replacedOldW) replacedNewW containerW 0).evs) :=
  ⟨by decide, by decide,
   claim_c5_destroy_hooks_before_release.2.1 10 replacedOldW replacedNewW containerW 0
     (by decide) 3 (by decide)⟩

/-- Claim C6: external-actor-owned host fields survive a patch that only
changes other concerns — patching a `div` whose `id` and `className` were set
externally with a tree that only adds text content leaves `id` and
`className` at their pre-patch values, keeps the tag, and sets the text. -/
theorem claim_c6_external_id_class_untouched :
    ∀ (idS clsS : String) (fuel fresh : Nat),
      (patch fuel none (build "div" [] [textV "Hello"])
        (HostNode.elem 100 "div" none [] idS clsS []) fresh).host.hid = idS ∧
      (patch fuel none (build "div" [] [textV "Hello"])
        (HostNode.elem 100 "div" none [] idS clsS []) fresh).host.className = clsS ∧
      (patch fuel none (build "div" [] [textV "Hello"])
        (HostNode.elem 100 "div" none [] idS clsS []) fresh).host.tag = "div" ∧
      hostText (patch fuel none (build "div" [] [textV "Hello"])
        (HostNode.elem 100 "div" none [] idS clsS []) fresh).host = "Hello" := by
  intro idS clsS fuel fresh
  exact ⟨rfl, rfl, rfl, rfl⟩

/-- Claim C7: on a first render (the old argument has no prior host
reference), the engine treats the bare element as the host container: the
returned tree's root holds the container's reference, every node of the
returned tree has a populated host reference, the freshly created host
children mirror the new tree's children exactly, every created host element
received its module create hook, and the container itself received its create
hook. -/
theorem claim_c7_first_render_creates_everything :
    ∀ (v : VNode) (nid : Nat) (tag : String) (ns : Option String) (attrs : List Attr)
      (hid cls : String) (fuel fresh : Nat),
      wellFormedList v.children = true →
      (patch fuel none v (HostNode.elem nid tag ns attrs hid cls []) fresh).vnode.elm =
        some nid ∧
      allAssigned
        (patch fuel none v (HostNode.elem nid tag ns attrs hid cls []) fresh).vnode = true ∧
      mirrorsList
        (patch fuel none v (HostNode.elem nid tag ns attrs hid cls []) fresh).vnode.children
        (patch fuel none v (HostNode.elem nid tag ns attrs hid cls []) fresh).host.children =
        true ∧
      (∀ m ∈ elemIdsHList
          (patch fuel none v (HostNode.elem nid tag ns attrs hid cls []) fresh).host.children,
        Ev.createHook m ∈
          (patch fuel none v (HostNode.elem nid tag ns attrs hid cls []) fresh).evs) ∧
      Ev.createHook nid ∈
        (patch fuel none v (HostNode.elem nid tag ns attrs hid cls []) fresh).evs := by
  intro v nid tag ns attrs hid cls fuel fresh hwf
  cases v with
  | mk s k a kl t ch e ihB =>
    have hwf' : wellFormedList ch = true := hwf
    obtain ⟨hA, hM, hH⟩ := createElms_ok ch
      (if tag = "foreignObject" then none else ns) fresh hwf'
    refine ⟨rfl, ?_, ?_, ?_, ?_⟩
    · simp only [patch, patchFirst, VNode.withChildren, VNode.withElm, allAssigned]
      simpa using hA
    · simp only [patch, patchFirst, VNode.withChildren, VNode.withElm, VNode.children,
        HostNode.children, List.nil_append]
      exact hM
    · intro m hm
      simp only [patch, patchFirst, VNode.withChildren, VNode.withElm,
        HostNode.children, List.nil_append] at hm ⊢
      exact List.mem_cons_of_mem _ (hH m hm)
    · exact List.mem_cons_self _ _

theorem claim_c7_witness :
    wellFormedList firstRenderW.children = true ∧
    ((patch 20 none firstRenderW (HostNode.elem 100 "div" none [] "" "" []) 0).vnode.elm =
        some 100 ∧
      allAssigned
        (patch 20 none firstRenderW (HostNode.elem 100 "div" none [] "" "" []) 0).vnode =
        true ∧
      mirrorsList
        (patch 20 none firstRenderW (HostNode.elem 100 "div" none [] "" "" []) 0).vnode.children
        (patch 20 none firstRenderW (HostNode.elem 100 "div" none [] "" "" []) 0).host.children =
        true ∧
      (∀ m ∈ elemIdsHList
          (patch 20 none firstRenderW (HostNode.elem 100 "div" none [] "" "" []) 0).host.children,
        Ev.createHook m ∈
          (patch 20 none firstRenderW (HostNode.elem 100 "div" none [] "" "" []) 0).evs) ∧
      Ev.createHook 100 ∈
        (patch 20 none firstRenderW (HostNode.elem 100 "div" none [] "" "" []) 0).evs) :=
  ⟨by decide,
   claim_c7_first_render_creates_everything firstRenderW 100 "div" none [] "" "" 20 0
     (by decide)⟩

/-- Claim C8: on every `patchElement` call that reaches the renderer, the new
host virtual node is normalized before patching: `elm` is the host element,
`isHost` is set, every class segment of the dot-separated selector is a
truthy entry of the class mapping, the injected mode class (prefixed by the
first class segment suffixed with `-`) is a truthy entry, `sel` ends up
cleared — so two normalized host vnodes with equal keys are always
sameness-compatible and the host element is reused in place, never
selector-matched and replaced — and the renderer receives exactly the
normalized vnode. -/
theorem claim_c8_renderer_vnode_normalized :
    ∀ (v : VNode) (hostId : Nat) (mode color : AttrVal),
      (normalizeHostVnode v hostId mode color).elm = some hostId ∧
      (normalizeHostVnode v hostId mode color).isHost = true ∧
      (normalizeHostVnode v hostId mode color).sel = none ∧
      (∀ c ∈ (selSegments v.sel).drop 1,
        (normalizeHostVnode v hostId mode color).klass.lookup c = some true) ∧
      (normalizeHostVnode v hostId mode color).klass.lookup
        (componentPrefixOf (selSegments v.sel) ++ mode.jsStr) = some true ∧
      (∀ (p : VNode) (hostId2 : Nat) (mode2 color2 : AttrVal), p.key = v.key →
        sameVnode (normalizeHostVnode p hostId2 mode2 color2)
          (normalizeHostVnode v hostId mode color) = true) ∧
      (∀ (elm : IonElm) (fuel : Nat),
        (patchElement elm (some v) fuel).vnodePrev =
          some (patch fuel elm.vnodePrev
            (normalizeHostVnode v elm.hostId
              (getValue "mode" elm.config elm.props .vNull)
              (getValue "color" elm.config elm.props .vNull))
            elm.host elm.fresh).vnode) := by
  intro v hostId mode color
  refine ⟨?_, ?_, ?_, ?_, ?_, ?_, ?_⟩
  · cases v; rfl
  · cases v; rfl
  · cases v; rfl
  · intro c hc
    exact normalize_lookup_true (preColor_seg_lookup v mode c hc)
  · exact normalize_lookup_true (preColor_mode_lookup v mode)
  · intro p hostId2 mode2 color2 hkey
    simp [sameVnode, normalize_sel, normalize_key, hkey]
  · intro elm fuel
    cases hr : elm.rendererInit <;> simp [patchElement, hr]

theorem claim_c8_witness :
    ("badge" ∈ (selSegments vnodeW.sel).drop 1 ∧
      (normalizeHostVnode vnodeW 7 (.vStr "md") (.vStr "primary")).klass.lookup "badge" =
        some true) ∧
    (vnodeW.key = vnodeW.key ∧
      sameVnode (normalizeHostVnode vnodeW 9 (.vStr "ios") .vNull)
        (normalizeHostVnode vnodeW 7 (.vStr "md") (.vStr "primary")) = true) :=
  ⟨⟨by decide,
    (claim_c8_renderer_vnode_normalized vnodeW 7 (.vStr "md") (.vStr "primary")).2.2.2.1
      "badge" (by decide)⟩,
   ⟨rfl,
    (claim_c8_renderer_vnode_normalized vnodeW 7 (.vStr "md") (.vStr "primary")).2.2.2.2.2.1
      vnodeW 9 (.vStr "ios") .vNull rfl⟩⟩

/-- Claim C9: when `ionNode(h)` returns a falsy virtual node, `patchElement`
returns immediately with no side effects — the element state (renderer flag,
property-initialization flag, host element and retained `_vnode`) is returned
unchanged. -/
theorem claim_c9_falsy_ionnode_no_side_effects :
    ∀ (elm : IonElm) (fuel : Nat), patchElement elm none fuel = elm :=
  fun _ _ => rfl

/-- Claim C10: `getValue` returns the host element's own property-or-attribute
value whenever that value is defined, and only otherwise falls back to the
global config lookup with the provided (null) fallback; consequently the
combined mode-color class is a truthy entry of the host class mapping exactly
when the resolved color is truthy, and with a falsy color the class mapping
stays at its pre-color stage. -/
theorem claim_c10_getvalue_and_color_class :
    (∀ (name : String) (config props : List (String × AttrVal)) (fb v : AttrVal),
        props.lookup name = some v → isDef v = true →
        getValue name config props fb = v) ∧
    (∀ (name : String) (config props : List (String × AttrVal)) (fb : AttrVal),
        isDef ((props.lookup name).getD .vUndef) = false →
        getValue name config props fb = configGet config name fb) ∧
    (∀ (v : VNode) (hostId : Nat) (mode color : AttrVal), color.truthy = true →
        (normalizeHostVnode v hostId mode color).klass.lookup
          (componentPrefixOf (selSegments v.sel) ++ mode.jsStr ++ "-" ++ color.jsStr) =
          some true) ∧
    (∀ (v : VNode) (hostId : Nat) (mode color : AttrVal), color.truthy = false →
        (normalizeHostVnode v hostId mode color).klass = preColorKlass v mode) := by
  refine ⟨?_, ?_, ?_, ?_⟩
  · intro name config props fb v h1 h2
    unfold getValue
    rw [h1]
    simp only [Option.getD_some]
    rw [if_pos h2]
  · intro name config props fb h
    unfold getValue
    rw [if_neg (bool_not_true h)]
  · intro v hostId mode color hct
    rw [normalize_klass, if_pos hct]
    exact setKlass_lookup_self _
  · intro v hostId mode color hcf
    rw [normalize_klass, if_neg (bool_not_true hcf)]

theorem claim_c10_witness :
    ([("mode", AttrVal.vStr "md")].lookup "mode" = some (.vStr "md") ∧
      isDef (.vStr "md") = true ∧
      getValue "mode" [] [("mode", .vStr "md")] .vNull = .vStr "md") ∧
    (AttrVal.truthy (.vStr "primary") = true ∧
      (normalizeHostVnode vnodeW 7 (.vStr "md") (.vStr "primary")).klass.lookup
        (componentPrefixOf (selSegments vnodeW.sel) ++ "md" ++ "-" ++ "primary") =
        some true) :=
  ⟨⟨by decide, by decide,
    claim_c10_getvalue_and_color_class.1 "mode" [] [("mode", .vStr "md")] .vNull
      (.vStr "md") (by decide) (by decide)⟩,
   ⟨by decide,
    claim_c10_getvalue_and_color_class.2.2.1 vnodeW 7 (.vStr "md") (.vStr "primary")
      (by decide)⟩⟩
